import Mathlib

/-!
# RoboStripper cleaning pipeline — shallow embedding and verification

This file embeds the core document-cleaning pipeline of `robostripper.py`
(the repetition detector, page-number detector, front-matter detector,
citation extractor, citation-header formatter, hyphenation repair and the
TTS abbreviation-expansion pass) as executable Lean definitions, and proves
or refutes the specification claims about them.

Modelling conventions:
* A Python `str` is modelled as a `List Char` (`Str` below).  String literals
  are converted with `String.data`.
* Python regular expressions are modelled by an explicit nondeterministic
  matcher (`M` below) whose result list is ordered by backtracking priority
  (greedy quantifiers produce longer matches first), so that "first result"
  coincides with the Python `re` engine's match, and "some result" with
  `re.search`/`re.match` success.  Character classes `\d`, `\w`, `\s` are
  modelled at ASCII granularity.
* Floating-point thresholds in the source (`int(total_pages * 0.4)`,
  `sequential_count >= len(candidates) * 0.6`) are modelled by the exact
  integer comparisons they implement: for these coefficients the IEEE-754
  double computation agrees with the exact rational one at every list
  length (the products `n * 0.4` and `n * 0.6` round to a value whose
  truncation respectively comparison equals the exact result), so
  `int(n*0.4)` is `n*2/5` in natural division and `s >= n*0.6` is
  `5*s ≥ 3*n`.
* Fallible Python operations (`line[0]`, `line.rstrip()[-1]`, metadata
  reads guarded by `try`) are modelled in `Except`/`Option` so that
  "never raises" becomes a provable statement.
-/

set_option maxHeartbeats 1000000
set_option maxRecDepth 16384

/-- A Python string, modelled as its list of characters. -/
abbrev Str := List Char

/-- ASCII whitespace predicate (Python `str.strip` / `\s`, ASCII fragment). -/
def wsC (c : Char) : Bool := c.isWhitespace

/-- `line.rstrip()`: drop trailing whitespace. -/
def rstripL (cs : Str) : Str := (cs.reverse.dropWhile wsC).reverse

/-- `line.lstrip()`: drop leading whitespace. -/
def lstripL (cs : Str) : Str := cs.dropWhile wsC

/-- `line.strip()`: drop whitespace at both ends. -/
def stripL (cs : Str) : Str := lstripL (rstripL cs)

/-- `s.lower()` (ASCII fragment, as `str.lower` on the A–Z range). -/
def lowerS (cs : Str) : Str := cs.map Char.toLower

/-- `text.split('\n')`: split on newline characters, keeping empty pieces. -/
def splitNL : Str → List Str
  | [] => [[]]
  | c :: rest =>
    if c = '\n' then [] :: splitNL rest
    else
      match splitNL rest with
      | [] => [[c]]
      | l :: ls => (c :: l) :: ls

/-- `[line.strip() for line in page_text.split('\n') if line.strip()]`:
the non-blank, stripped lines of a page.  Used verbatim by
`detect_page_numbers`, `detect_repeating_lines` and `extract_citation`. -/
def pageLines (p : Str) : List Str := ((splitNL p).map stripL).filter (fun l => !l.isEmpty)

/-- Python `needle in hay` substring test. -/
def isSubL (n : Str) : Str → Bool
  | [] => n.isEmpty
  | c :: t => n.isPrefixOf (c :: t) || isSubL n t

/-- The marker-phrase list of `detect_front_matter_pages`. -/
def frontMarkers : List Str :=
  [ "jstor is a not-for-profit".data
  , "escholarship.org".data
  , "chicago unbound".data
  , "follow this and additional works".data
  , "stable url:".data
  , "recommended citation".data ]

/-- `detect_front_matter_pages(pages)`: 1 when page 0's lower-cased text
contains a marker phrase and page 0 has fewer than 500 characters, else 0. -/
def detect_front_matter_pages (pages : List Str) : Nat :=
  match pages with
  | [] => 0
  | p0 :: _ =>
    if (frontMarkers.any (fun m => isSubL m (lowerS p0))) && decide (p0.length < 500) then 1
    else 0

section BasicLemmas

theorem isSubL_iff (n : Str) : ∀ h : Str, isSubL n h = true ↔ n <:+: h := by
  intro h
  induction h with
  | nil =>
    simp only [isSubL, List.isEmpty_iff]
    constructor
    · intro hn; simp [hn]
    · intro hn; exact List.eq_nil_of_infix_nil hn
  | cons c t ih =>
    simp only [isSubL, Bool.or_eq_true, ih, List.isPrefixOf_iff_prefix]
    constructor
    · rintro (hp | hi)
      · exact hp.isInfix
      · exact hi.trans (List.suffix_cons c t).isInfix
    · intro hi
      rcases hi with ⟨s, t', he⟩
      cases s with
      | nil => left; exact ⟨t', by simpa using he⟩
      | cons a s' =>
        right
        have ht : s' ++ (n ++ t') = t := by
          have := congrArg List.tail he
          simpa using this
        exact ⟨s', t', by simpa using ht⟩

end BasicLemmas

/-- **C5** — Front-matter rule: for every non-empty page list the detector
returns 1 exactly when page 0's lower-cased text contains one of the fixed
marker phrases and page 0 is shorter than 500 characters, and 0 otherwise;
on every page list the result is at most 1, so document cleaning (which
drops exactly `detect_front_matter_pages pages` leading pages) never drops
more than the first page and never drops middle or trailing pages. -/
theorem C5_front_matter_rule :
    (∀ (p0 : Str) (rest : List Str),
        detect_front_matter_pages (p0 :: rest) = 1 ↔
          (∃ m ∈ frontMarkers, m <:+: lowerS p0) ∧ p0.length < 500)
    ∧ ∀ pages : List Str, detect_front_matter_pages pages ≤ 1 := by
  constructor
  · intro p0 rest
    simp only [detect_front_matter_pages]
    split
    · rename_i hc
      simp only [Bool.and_eq_true, List.any_eq_true, decide_eq_true_eq] at hc
      obtain ⟨⟨m, hm, hs⟩, h2⟩ := hc
      exact iff_of_true rfl ⟨⟨m, hm, (isSubL_iff _ _).1 hs⟩, h2⟩
    · rename_i hc
      simp only [Bool.and_eq_true, List.any_eq_true, decide_eq_true_eq] at hc
      refine iff_of_false (by decide) ?_
      rintro ⟨⟨m, hm, hs⟩, h2⟩
      exact hc ⟨⟨m, hm, (isSubL_iff _ _).2 hs⟩, h2⟩
  · intro pages
    match pages with
    | [] => simp [detect_front_matter_pages]
    | p0 :: rest =>
      simp only [detect_front_matter_pages]
      split <;> simp

/-- **C5 witness** — the rule instantiated on a concrete two-page document
whose first page is a short JSTOR cover page. -/
theorem C5_front_matter_rule_witness :
    detect_front_matter_pages
      ["JSTOR is a not-for-profit service.\nStable URL: https://www.jstor.org/stable/1".data,
       "Real body text".data] = 1 := by
  have h := (C5_front_matter_rule.1
    "JSTOR is a not-for-profit service.\nStable URL: https://www.jstor.org/stable/1".data
    ["Real body text".data]).2
  refine h ⟨⟨"stable url:".data, by decide, ?_⟩, by decide⟩
  exact (isSubL_iff _ _).1 (by decide)

/- ── Repetition detector (`detect_repeating_lines`) ─────────────────────── -/

/-- The body of the candidate loop of `detect_repeating_lines`: walk the
header+footer lines of one page, normalize each (`line.lower().strip()`),
and keep a normalized line when it is non-empty, shorter than 200
characters and not yet seen on this page (`seen_this_page`). -/
def candFold : List Str → List Str → List Str
  | [], _ => []
  | l :: ls, seen =>
    let n := stripL (lowerS l)
    if n.isEmpty = false ∧ n.length < 200 ∧ n ∉ seen then
      n :: candFold ls (n :: seen)
    else candFold ls seen

/-- The per-page contribution to the line counter of
`detect_repeating_lines`: one occurrence of each distinct normalized
header/footer candidate line of the page. -/
def rlCandList (page : Str) : List Str :=
  let lines := pageLines page
  let header := lines.take 5
  let footer := if 5 < lines.length then lines.drop (lines.length - 5) else []
  candFold (header ++ footer) []

/-- Deduplication keeping first occurrences (the distinct keys of the
Python `Counter`). -/
def dedupF {α} [DecidableEq α] (seen : List α) : List α → List α
  | [] => []
  | x :: xs => if x ∈ seen then dedupF seen xs else x :: dedupF (x :: seen) xs

/-- `detect_repeating_lines(pages)`: the set (here: duplicate-free list) of
normalized header/footer lines whose page count reaches
`max(3, int(total_pages * 0.4))`. -/
def detect_repeating_lines (pages : List Str) : List Str :=
  let allC := pages.flatMap rlCandList
  let threshold := max 3 (pages.length * 2 / 5)
  (dedupF [] allC).filter (fun l => decide (threshold ≤ allC.count l))

section StripLemmas

theorem dropWhile_idem (p : α → Bool) : ∀ l : List α,
    List.dropWhile p (List.dropWhile p l) = List.dropWhile p l := by
  intro l
  induction l with
  | nil => rfl
  | cons c t ih =>
    by_cases h : p c
    · simp [List.dropWhile_cons, h, ih]
    · simp [List.dropWhile_cons, h]

theorem length_dropWhile_le' (p : α → Bool) : ∀ l : List α,
    (List.dropWhile p l).length ≤ l.length := by
  intro l
  induction l with
  | nil => simp
  | cons c t ih =>
    rw [List.dropWhile_cons]
    split
    · simp only [List.length_cons]; omega
    · simp

theorem rstripL_idem (y : Str) : rstripL (rstripL y) = rstripL y := by
  simp [rstripL, dropWhile_idem]

theorem rstripL_fixed_of_suffix {s w : Str} (hs : s <:+ w) (hw : rstripL w = w) :
    rstripL s = s := by
  rcases hs with ⟨t, ht⟩
  cases hrs : s.reverse with
  | nil =>
    have hnil : s = [] := by simpa using congrArg List.reverse hrs
    simp [hnil, rstripL]
  | cons c t' =>
    have hw' : List.dropWhile wsC w.reverse = w.reverse := by
      have := congrArg List.reverse hw
      simpa [rstripL] using this
    have hrw : w.reverse = c :: (t' ++ t.reverse) := by
      rw [← ht]
      simp [hrs]
    rw [hrw, List.dropWhile_cons] at hw'
    by_cases hc : wsC c = true
    · rw [if_pos hc] at hw'
      have hlen := congrArg List.length hw'
      have hle := length_dropWhile_le' wsC (t' ++ t.reverse)
      simp only [List.length_cons, List.length_append, List.length_reverse] at hlen hle
      omega
    · have hds : List.dropWhile wsC s.reverse = s.reverse := by
        rw [hrs, List.dropWhile_cons, if_neg hc]
      simpa [rstripL] using congrArg List.reverse hds

theorem rstripL_stripL (y : Str) : rstripL (stripL y) = stripL y :=
  rstripL_fixed_of_suffix (List.dropWhile_suffix wsC) (rstripL_idem y)

theorem stripL_idem (y : Str) : stripL (stripL y) = stripL y := by
  show lstripL (rstripL (stripL y)) = stripL y
  rw [rstripL_stripL]
  show List.dropWhile wsC (stripL y) = stripL y
  simp only [stripL, lstripL, dropWhile_idem]

theorem stripL_eq_nil_iff (cs : Str) : stripL cs = [] ↔ ∀ c ∈ cs, wsC c = true := by
  constructor
  · intro h c hc
    simp only [stripL, lstripL] at h
    have hsplit : cs = (List.dropWhile wsC cs.reverse).reverse
        ++ (List.takeWhile wsC cs.reverse).reverse := by
      conv_lhs => rw [← List.reverse_reverse cs, ← List.takeWhile_append_dropWhile wsC cs.reverse]
      rw [List.reverse_append]
    rw [hsplit] at hc
    rcases List.mem_append.1 hc with h1 | h1
    · have hmem : c ∈ rstripL cs := by simpa [rstripL] using h1
      exact List.dropWhile_eq_nil_iff.1 h c hmem
    · exact List.mem_takeWhile_imp (List.mem_reverse.1 h1)
  · intro h
    show List.dropWhile wsC (rstripL cs) = []
    apply List.dropWhile_eq_nil_iff.2
    intro x hx
    refine h x ?_
    have hx' : x ∈ List.dropWhile wsC cs.reverse := by simpa [rstripL] using hx
    exact List.mem_reverse.1 ((List.dropWhile_suffix wsC).subset hx')

theorem wsC_ofNat_add32_false {n : Nat} (h1 : 65 ≤ n) (h2 : n ≤ 90) :
    wsC (Char.ofNat (n + 32)) = false := by
  interval_cases n <;> decide

theorem wsC_of_wsC_toLower {c : Char} (h : wsC (Char.toLower c) = true) : wsC c = true := by
  by_cases hr : c.toNat ≥ 65 ∧ c.toNat ≤ 90
  · have he : Char.toLower c = Char.ofNat (c.toNat + 32) := by
      simp [Char.toLower, hr]
    rw [he, wsC_ofNat_add32_false hr.1 hr.2] at h
    exact absurd h (by simp)
  · have he : Char.toLower c = c := by
      simp [Char.toLower, hr]
    rwa [he] at h

theorem stripL_lowerS_ne_nil {x : Str} (hs : stripL x = x) (hne : x ≠ []) :
    stripL (lowerS x) ≠ [] := by
  intro hnil
  have hws : ∀ c ∈ lowerS x, wsC c = true := (stripL_eq_nil_iff _).1 hnil
  have hws' : ∀ c ∈ x, wsC c = true := by
    intro c hc
    exact wsC_of_wsC_toLower (hws (Char.toLower c) (List.mem_map_of_mem Char.toLower hc))
  have : stripL x = [] := (stripL_eq_nil_iff _).2 hws'
  exact hne (by rw [← hs, this])

theorem pageLines_strip {p : Str} : ∀ x ∈ pageLines p, stripL x = x ∧ x ≠ [] := by
  intro x hx
  simp only [pageLines, List.mem_filter, List.mem_map] at hx
  rcases hx with ⟨⟨y, _, hy⟩, hne⟩
  subst hy
  exact ⟨stripL_idem y, by simpa using hne⟩

end StripLemmas

section RepetitionLemmas

theorem mem_candFold : ∀ (ls seen : List Str) (l : Str),
    l ∈ candFold ls seen ↔
      ((∃ x ∈ ls, stripL (lowerS x) = l) ∧ l.isEmpty = false ∧ l.length < 200 ∧ l ∉ seen) := by
  intro ls
  induction ls with
  | nil => intro seen l; simp [candFold]
  | cons x xs ih =>
    intro seen l
    simp only [candFold]
    by_cases hb : (stripL (lowerS x)).isEmpty = false ∧ (stripL (lowerS x)).length < 200 ∧
        stripL (lowerS x) ∉ seen
    · rw [if_pos hb]
      obtain ⟨hne, hlen, hseen⟩ := hb
      constructor
      · intro hm
        rcases List.mem_cons.1 hm with he | hm'
        · subst he
          exact ⟨⟨x, List.mem_cons_self x xs, rfl⟩, hne, hlen, hseen⟩
        · obtain ⟨⟨y, hy, hye⟩, h1, h2, h3⟩ := (ih _ l).1 hm'
          have hln : l ∉ seen := fun hc => h3 (List.mem_cons_of_mem _ hc)
          exact ⟨⟨y, List.mem_cons_of_mem _ hy, hye⟩, h1, h2, hln⟩
      · rintro ⟨⟨y, hy, hye⟩, h1, h2, h3⟩
        by_cases hl : l = stripL (lowerS x)
        · exact hl ▸ List.mem_cons_self _ _
        · refine List.mem_cons_of_mem _ ((ih _ l).2 ⟨⟨y, ?_, hye⟩, h1, h2, ?_⟩)
          · rcases List.mem_cons.1 hy with he | hy'
            · exact absurd (he ▸ hye).symm hl
            · exact hy'
          · intro hc
            rcases List.mem_cons.1 hc with he | hc'
            · exact hl he
            · exact h3 hc'
    · rw [if_neg hb]
      constructor
      · intro hm
        obtain ⟨⟨y, hy, hye⟩, h1, h2, h3⟩ := (ih _ l).1 hm
        exact ⟨⟨y, List.mem_cons_of_mem _ hy, hye⟩, h1, h2, h3⟩
      · rintro ⟨⟨y, hy, hye⟩, h1, h2, h3⟩
        rcases List.mem_cons.1 hy with he | hy'
        · -- the head candidate is l itself; the guard must then have succeeded
          exact absurd ((he ▸ hye) ▸ ⟨h1, h2, h3⟩) hb
        · exact (ih _ l).2 ⟨⟨y, hy', hye⟩, h1, h2, h3⟩

theorem nodup_candFold : ∀ (ls seen : List Str), (candFold ls seen).Nodup := by
  intro ls
  induction ls with
  | nil => intro seen; simp [candFold]
  | cons x xs ih =>
    intro seen
    simp only [candFold]
    split
    · refine List.nodup_cons.2 ⟨?_, ih _⟩
      intro hc
      have := ((mem_candFold _ _ _).1 hc).2.2.2
      exact this (List.mem_cons_self _ _)
    · exact ih _

theorem mem_dedupF {α} [DecidableEq α] : ∀ (xs seen : List α) (l : α),
    l ∈ dedupF seen xs ↔ l ∈ xs ∧ l ∉ seen := by
  intro xs
  induction xs with
  | nil => intro seen l; simp [dedupF]
  | cons x xs ih =>
    intro seen l
    simp only [dedupF]
    by_cases hx : x ∈ seen
    · rw [if_pos hx]
      rw [ih]
      constructor
      · rintro ⟨h1, h2⟩
        exact ⟨List.mem_cons_of_mem _ h1, h2⟩
      · rintro ⟨h1, h2⟩
        rcases List.mem_cons.1 h1 with he | h1'
        · subst he
          exact absurd hx h2
        · exact ⟨h1', h2⟩
    · rw [if_neg hx]
      constructor
      · intro hm
        rcases List.mem_cons.1 hm with he | hm'
        · subst he
          exact ⟨List.mem_cons_self _ _, hx⟩
        · obtain ⟨h1, h2⟩ := (ih _ _).1 hm'
          refine ⟨List.mem_cons_of_mem _ h1, fun hc => h2 (List.mem_cons_of_mem _ hc)⟩
      · rintro ⟨h1, h2⟩
        rcases List.mem_cons.1 h1 with he | h1'
        · exact he ▸ List.mem_cons_self _ _
        · by_cases hl : l = x
          · exact hl ▸ List.mem_cons_self _ _
          · refine List.mem_cons_of_mem _ ((ih _ _).2 ⟨h1', ?_⟩)
            intro hc
            rcases List.mem_cons.1 hc with he | hc'
            · exact hl he
            · exact h2 hc'

end RepetitionLemmas

/-- The claim-side notion of header/footer candidate lines of a page: its
first 5 and last 5 non-blank lines. -/
def specHF (p : Str) : List Str :=
  (pageLines p).take 5 ++ (pageLines p).drop ((pageLines p).length - 5)

/-- The claim-side occurrence predicate of the (amended) claim C1: the
normalized line `l` occurs among the page's header/footer candidate lines
and has normalized length under 200. -/
abbrev specOccurs (l p : Str) : Prop :=
  (∃ x ∈ specHF p, stripL (lowerS x) = l) ∧ l.length < 200

section RepetitionMain

theorem mem_hfList_iff_specHF (p : Str) (x : Str) :
    (x ∈ (pageLines p).take 5 ++
        (if 5 < (pageLines p).length then
          (pageLines p).drop ((pageLines p).length - 5) else []))
      ↔ x ∈ specHF p := by
  by_cases h : 5 < (pageLines p).length
  · simp [specHF, h]
  · have hlen : (pageLines p).length ≤ 5 := by omega
    have htake : (pageLines p).take 5 = pageLines p := List.take_of_length_le hlen
    have hdrop : (pageLines p).length - 5 = 0 := by omega
    simp only [specHF, h, if_false, htake, hdrop, List.drop_zero, List.append_nil,
      List.mem_append]
    tauto

theorem mem_rlCandList (p l : Str) :
    l ∈ rlCandList p ↔
      (∃ x ∈ specHF p, stripL (lowerS x) = l) ∧ l.isEmpty = false ∧ l.length < 200 := by
  unfold rlCandList
  rw [mem_candFold]
  simp only [List.not_mem_nil, not_false_iff, and_true]
  constructor
  · rintro ⟨⟨x, hx, he⟩, h1, h2⟩
    exact ⟨⟨x, (mem_hfList_iff_specHF p x).1 hx, he⟩, h1, h2⟩
  · rintro ⟨⟨x, hx, he⟩, h1, h2⟩
    exact ⟨⟨x, (mem_hfList_iff_specHF p x).2 hx, he⟩, h1, h2⟩

theorem mem_rlCandList_iff_specOccurs (p l : Str) :
    l ∈ rlCandList p ↔ specOccurs l p := by
  rw [mem_rlCandList]
  constructor
  · rintro ⟨hex, _, hlen⟩
    exact ⟨hex, hlen⟩
  · rintro ⟨⟨x, hx, he⟩, hlen⟩
    refine ⟨⟨x, hx, he⟩, ?_, hlen⟩
    have hx' : x ∈ pageLines p := by
      rcases List.mem_append.1 hx with h | h
      · exact List.mem_of_mem_take h
      · exact List.mem_of_mem_drop h
    obtain ⟨hsx, hnx⟩ := pageLines_strip x hx'
    have : l ≠ [] := by
      rw [← he]
      exact stripL_lowerS_ne_nil hsx hnx
    exact List.isEmpty_eq_false.2 this

theorem countP_congr' {α} (p q : α → Bool) :
    ∀ L : List α, (∀ a ∈ L, p a = q a) → L.countP p = L.countP q := by
  intro L
  induction L with
  | nil => intro _; rfl
  | cons a t ih =>
    intro h
    rw [List.countP_cons, List.countP_cons, ih (fun b hb => h b (List.mem_cons_of_mem _ hb)),
      h a (List.mem_cons_self _ _)]

theorem count_eq_one_of_nodup_mem {α} [BEq α] [LawfulBEq α] {a : α} :
    ∀ {l : List α}, l.Nodup → a ∈ l → l.count a = 1 := by
  intro l
  induction l with
  | nil => intro _ h; exact absurd h (List.not_mem_nil a)
  | cons b t ih =>
    intro hn hm
    rw [List.count_cons]
    rcases List.mem_cons.1 hm with he | hm'
    · subst he
      have hz : t.count a = 0 := List.count_eq_zero.2 (List.nodup_cons.1 hn).1
      simp [hz]
    · have hne : (b == a) = false :=
        beq_eq_false_iff_ne.2 (fun he => (List.nodup_cons.1 hn).1 (he.symm ▸ hm'))
      have h1 : t.count a = 1 := ih (List.nodup_cons.1 hn).2 hm'
      rw [hne, h1]
      simp

theorem count_flatMap_rl (l : Str) : ∀ pages : List Str,
    (pages.flatMap rlCandList).count l = pages.countP (fun p => decide (l ∈ rlCandList p)) := by
  intro pages
  induction pages with
  | nil => simp
  | cons p ps ih =>
    have hstep : ((p :: ps).flatMap rlCandList) = rlCandList p ++ ps.flatMap rlCandList := rfl
    rw [hstep, List.count_append, ih, List.countP_cons]
    have hhead : (rlCandList p).count l = if l ∈ rlCandList p then 1 else 0 := by
      by_cases h : l ∈ rlCandList p
      · rw [if_pos h]
        exact count_eq_one_of_nodup_mem (nodup_candFold _ _) h
      · rw [if_neg h]
        exact List.count_eq_zero.2 h
    rw [hhead]
    by_cases h : l ∈ rlCandList p <;> simp [h] <;> omega

end RepetitionMain

/-- **C1 (amended)** — membership in the repetition detector's removal set:
a normalized line is in the set iff it occurs among the header/footer
candidate lines (first 5 and last 5 non-blank lines) of at least
`max(3, ⌊40% of the page count⌋)` pages **and its normalized length is
under 200 characters** (the length bound is the amendment forced by the
counterexample `C1_counterexample`). -/
theorem C1_repetition_threshold_amended :
    ∀ (pages : List Str) (l : Str),
      l ∈ detect_repeating_lines pages ↔
        max 3 (pages.length * 2 / 5) ≤ pages.countP (fun p => decide (specOccurs l p)) := by
  intro pages l
  have hcong : pages.countP (fun p => decide (l ∈ rlCandList p))
      = pages.countP (fun p => decide (specOccurs l p)) := by
    apply countP_congr'
    intro p _
    by_cases h : l ∈ rlCandList p
    · rw [decide_eq_true h, decide_eq_true ((mem_rlCandList_iff_specOccurs p l).1 h)]
    · rw [decide_eq_false h, decide_eq_false (fun hc => h ((mem_rlCandList_iff_specOccurs p l).2 hc))]
  simp only [detect_repeating_lines]
  rw [List.mem_filter, mem_dedupF]
  simp only [List.not_mem_nil, not_false_iff, and_true, decide_eq_true_eq]
  rw [count_flatMap_rl, hcong]
  constructor
  · rintro ⟨_, h⟩
    exact h
  · intro h
    refine ⟨?_, h⟩
    have hpos : 0 < (pages.flatMap rlCandList).count l := by
      rw [count_flatMap_rl, hcong]
      have h3 : (3 : Nat) ≤ max 3 (pages.length * 2 / 5) := le_max_left _ _
      omega
    exact List.count_pos_iff.1 hpos

/-- **C1 counterexample** — the claim as stated (without a length bound) is
false: a 200-character line appearing in the header of all 3 pages reaches
the `max(3, ⌊40%⌋) = 3` page threshold, yet the removal set is empty,
because `detect_repeating_lines` silently drops candidates of normalized
length `≥ 200`. -/
theorem C1_counterexample :
    (max 3 ((List.replicate 3 (List.replicate 200 'a') : List Str).length * 2 / 5) ≤
      (List.replicate 3 (List.replicate 200 'a') : List Str).countP
        (fun p => decide (∃ x ∈ specHF p, stripL (lowerS x) = List.replicate 200 'a')))
    ∧ List.replicate 200 'a' ∉
        detect_repeating_lines (List.replicate 3 (List.replicate 200 'a')) := by
  constructor
  · decide
  · decide

/-- **C10** — the repetition detector never removes a long line: every
member of its removal set has (normalized) length strictly less than 200
characters, so a repeated header or footer of 200 or more characters is
never removed by repetition detection. -/
theorem C10_removal_set_short_lines :
    ∀ (pages : List Str) (l : Str), l ∈ detect_repeating_lines pages → l.length < 200 := by
  intro pages l h
  simp only [detect_repeating_lines] at h
  rw [List.mem_filter, mem_dedupF] at h
  obtain ⟨⟨hmem, _⟩, _⟩ := h
  obtain ⟨p, _, hp⟩ := List.mem_flatMap.1 hmem
  exact ((mem_rlCandList p l).1 hp).2.2

/-- **C10 witness** — on a concrete 3-page document the removal set contains
the normalized header line, and the theorem yields its length bound. -/
theorem C10_removal_set_short_lines_witness :
    ("header".data ∈ detect_repeating_lines
      (List.replicate 3 "Header\nBody text of the page.".data))
    ∧ ("header".data).length < 200 := by
  refine ⟨by decide, ?_⟩
  exact C10_removal_set_short_lines
    (List.replicate 3 "Header\nBody text of the page.".data) "header".data (by decide)

/- ── Page-number detector (`detect_page_numbers`) ───────────────────────── -/

/-- A page-number candidate of `detect_page_numbers`: the tuple
`(page_index, line_position, number_value, original_text)`. -/
structure PNC where
  pg : Nat
  pos : Nat
  val : Nat
  orig : Str
deriving DecidableEq

/-- `re.match(r'^\s*\d{1,4}\s*$', line)` on an already-stripped line:
the line consists of 1 to 4 decimal digits. -/
def isDigitLine (l : Str) : Bool :=
  !l.isEmpty && decide (l.length ≤ 4) && l.all Char.isDigit

/-- `int(line)` on a digit string: its decimal value. -/
def digitVal (l : Str) : Nat := l.foldl (fun a c => a * 10 + (c.toNat - 48)) 0

/-- The candidates contributed by one page: when the page has at least 3
non-blank lines, its first `min(3, len(lines))` and last `min(3, len(lines))`
lines are inspected and each standalone 1–4-digit line is recorded. -/
def pnPageCands (idx : Nat) (page : Str) : List PNC :=
  let lines := pageLines page
  if 3 ≤ lines.length then
    (((List.range (min 3 lines.length)).map (fun i => (i, lines.getD i [])))
      ++ (List.range (min 3 lines.length)).map (fun i =>
            (lines.length - i - 1, lines.getD (lines.length - i - 1) []))).filterMap
      (fun pr =>
        if isDigitLine pr.2 then
          some ⟨idx, pr.1, digitVal (stripL pr.2), stripL pr.2⟩
        else none)
  else []

/-- `enumerate(pages)` driving the candidate collection. -/
def pnCands (k : Nat) : List Str → List PNC
  | [] => []
  | p :: ps => pnPageCands k p ++ pnCands (k + 1) ps

/-- The full `page_num_candidates` list of `detect_page_numbers`. -/
def pnCandidates (pages : List Str) : List PNC := pnCands 0 pages

/-- `by_position[line_pos]`: the group of `(page_idx, num_value, original)`
triples at one line position, in insertion order. -/
def groupAt (pos : Nat) (cs : List PNC) : List (Nat × Nat × Str) :=
  (cs.filter (fun c => c.pos == pos)).map (fun c => (c.pg, c.val, c.orig))

/-- Lexicographic string comparison (Python `str` `<`, by code point). -/
def strLtB : Str → Str → Bool
  | [], [] => false
  | [], _ :: _ => true
  | _ :: _, [] => false
  | a :: x, b :: y =>
    if a.val < b.val then true else if b.val < a.val then false else strLtB x y

/-- Lexicographic `≤` on the `(page_idx, num_value, original)` triples,
i.e. Python's tuple ordering used by `candidates.sort()`. -/
def candLe (a b : Nat × Nat × Str) : Bool :=
  if a.1 < b.1 then true
  else if b.1 < a.1 then false
  else if a.2.1 < b.2.1 then true
  else if b.2.1 < a.2.1 then false
  else strLtB a.2.2 b.2.2 || a.2.2 == b.2.2

def insertCand (x : Nat × Nat × Str) : List (Nat × Nat × Str) → List (Nat × Nat × Str)
  | [] => [x]
  | y :: ys => if candLe x y then x :: y :: ys else y :: insertCand x ys

/-- `candidates.sort()`: stable ascending sort by the tuple order.  (Python
uses an adaptive merge sort; since `candLe` is a total order and equal
elements here are identical tuples, any stable ascending sort produces the
same list, so insertion sort is an exact model.) -/
def sortCands : List (Nat × Nat × Str) → List (Nat × Nat × Str)
  | [] => []
  | x :: xs => insertCand x (sortCands xs)

/-- `sequential_count`: the number of adjacent pairs (in page-sorted order)
whose values strictly increase with a gap of at most 5. -/
def seqCount : List (Nat × Nat × Str) → Nat
  | a :: b :: rest =>
    (if a.2.1 < b.2.1 ∧ b.2.1 - a.2.1 ≤ 5 then 1 else 0) + seqCount (b :: rest)
  | _ => 0

/-- `detect_page_numbers(pages)`: candidates are collected, grouped by line
position, each group of at least 3 candidates is sorted by page index, and
when `sequential_count >= len(candidates) * 0.6` (exactly:
`5 * sequential_count ≥ 3 * len`) all the group's original strings enter
the removal set. -/
def detect_page_numbers (pages : List Str) : List Str :=
  let cands := pnCandidates pages
  if cands.length < 3 then []
  else
    (dedupF [] (cands.map (fun c => c.pos))).flatMap (fun p =>
      let g := groupAt p cands
      if g.length < 3 then []
      else
        let sorted := sortCands g
        if 3 * g.length ≤ 5 * seqCount sorted then sorted.map (fun c => c.2.2) else [])

section PageNumberLemmas

theorem mem_insertCand (x a : Nat × Nat × Str) : ∀ l, a ∈ insertCand x l ↔ a = x ∨ a ∈ l := by
  intro l
  induction l with
  | nil => simp [insertCand]
  | cons y ys ih =>
    simp only [insertCand]
    split
    · simp [List.mem_cons]
    · simp only [List.mem_cons, ih]
      tauto

theorem mem_sortCands (a : Nat × Nat × Str) : ∀ l, a ∈ sortCands l ↔ a ∈ l := by
  intro l
  induction l with
  | nil => simp [sortCands]
  | cons x xs ih =>
    simp only [sortCands, mem_insertCand, ih, List.mem_cons]

theorem getD_mem_of_lt {l : List Str} {n : Nat} (h : n < l.length) : l.getD n [] ∈ l := by
  rw [List.getD_eq_getElem l [] h]
  exact List.getElem_mem h

theorem mem_pnPageCands (idx : Nat) (page : Str) (c : PNC) :
    c ∈ pnPageCands idx page ↔
      (c.pg = idx ∧ 3 ≤ (pageLines page).length ∧ c.pos < (pageLines page).length ∧
       (c.pos < 3 ∨ (pageLines page).length ≤ c.pos + 3) ∧
       c.orig = (pageLines page).getD c.pos [] ∧ isDigitLine c.orig = true ∧
       c.val = digitVal c.orig) := by
  simp only [pnPageCands]
  by_cases hg : 3 ≤ (pageLines page).length
  · rw [if_pos hg]
    have hmin : min 3 (pageLines page).length = 3 := Nat.min_eq_left hg
    rw [List.mem_filterMap]
    constructor
    · rintro ⟨pr, hpr, hsome⟩
      have hd : isDigitLine pr.2 = true := by
        by_contra hd
        rw [if_neg hd] at hsome
        exact Option.noConfusion hsome
      rw [if_pos hd] at hsome
      have hc := Option.some.inj hsome
      subst hc
      rcases List.mem_append.1 hpr with hA | hB
      · obtain ⟨i, hi, he⟩ := List.mem_map.1 hA
        rw [List.mem_range, hmin] at hi
        have hpos : i < (pageLines page).length := by omega
        have hline : (pageLines page).getD i [] ∈ pageLines page := getD_mem_of_lt hpos
        have hstrip : stripL ((pageLines page).getD i []) = (pageLines page).getD i [] :=
          (pageLines_strip _ hline).1
        cases he
        exact ⟨rfl, hg, hpos, Or.inl hi, hstrip, by rw [hstrip]; exact hd, rfl⟩
      · obtain ⟨i, hi, he⟩ := List.mem_map.1 hB
        rw [List.mem_range, hmin] at hi
        have hpos : (pageLines page).length - i - 1 < (pageLines page).length := by omega
        have hline := getD_mem_of_lt hpos
        have hstrip := (pageLines_strip _ hline).1
        cases he
        refine ⟨rfl, hg, hpos, Or.inr ?_, hstrip, by rw [hstrip]; exact hd, rfl⟩
        show (pageLines page).length ≤ (pageLines page).length - i - 1 + 3
        omega
    · rintro ⟨hpg, _, hpos, hcase, horig, hdig, hval⟩
      have hline : (pageLines page).getD c.pos [] ∈ pageLines page := getD_mem_of_lt hpos
      have hstrip : stripL ((pageLines page).getD c.pos []) = (pageLines page).getD c.pos [] :=
        (pageLines_strip _ hline).1
      have hdig' : isDigitLine ((pageLines page).getD c.pos []) = true := by
        rw [← horig]; exact hdig
      have hsome : (if isDigitLine ((pageLines page).getD c.pos []) then
          some (⟨idx, c.pos, digitVal (stripL ((pageLines page).getD c.pos [])),
            stripL ((pageLines page).getD c.pos [])⟩ : PNC) else none) = some c := by
        rw [if_pos hdig', hstrip]
        cases c
        simp only at hpg horig hval ⊢
        rw [hpg, ← horig, hval]
      rcases hcase with h3 | hlast
      · refine ⟨(c.pos, (pageLines page).getD c.pos []), ?_, hsome⟩
        apply List.mem_append.2
        left
        exact List.mem_map.2 ⟨c.pos, by rw [List.mem_range, hmin]; exact h3, rfl⟩
      · refine ⟨((pageLines page).length - ((pageLines page).length - 1 - c.pos) - 1,
          (pageLines page).getD ((pageLines page).length - ((pageLines page).length - 1 - c.pos) - 1) []), ?_, ?_⟩
        · apply List.mem_append.2
          right
          refine List.mem_map.2 ⟨(pageLines page).length - 1 - c.pos, ?_, rfl⟩
          rw [List.mem_range, hmin]
          omega
        · have hix : (pageLines page).length - ((pageLines page).length - 1 - c.pos) - 1 = c.pos := by
            omega
          rw [hix]
          exact hsome
  · rw [if_neg hg]
    refine iff_of_false (List.not_mem_nil c) ?_
    rintro ⟨_, h3, _⟩
    exact hg h3

theorem mem_pnCands : ∀ (ps : List Str) (k : Nat) (c : PNC),
    c ∈ pnCands k ps ↔ ∃ j p, ps[j]? = some p ∧ c ∈ pnPageCands (k + j) p := by
  intro ps
  induction ps with
  | nil =>
    intro k c
    simp [pnCands]
  | cons p ps' ih =>
    intro k c
    simp only [pnCands, List.mem_append]
    constructor
    · rintro (h | h)
      · exact ⟨0, p, by simp, by simpa using h⟩
      · obtain ⟨j, q, hq, hc⟩ := (ih (k + 1) c).1 h
        refine ⟨j + 1, q, by simpa using hq, ?_⟩
        rw [show k + (j + 1) = (k + 1) + j by omega]
        exact hc
    · rintro ⟨j, q, hq, hc⟩
      cases j with
      | zero =>
        left
        have : q = p := (by simpa using hq : p = q).symm
        subst this
        simpa using hc
      | succ j' =>
        right
        refine (ih (k + 1) c).2 ⟨j', q, by simpa using hq, ?_⟩
        rw [show (k + 1) + j' = k + (j' + 1) by omega]
        exact hc

end PageNumberLemmas

/-- **C6 (amended)** — candidate collection of the Page-Number Detector:
a tuple `(idx, pos, v, o)` is recorded as a candidate iff page `idx`
exists, **has at least 3 non-blank lines**, `pos` is among its first 3 or
last 3 non-blank line positions, the line there consists of 1–4 digits, and
`v`/`o` are its numeric value and text.  Pages with fewer than 3 non-blank
lines contribute no candidates (the amendment forced by
`C6_counterexample`). -/
theorem C6_candidate_characterization_amended :
    ∀ (pages : List Str) (idx pos v : Nat) (o : Str),
      (⟨idx, pos, v, o⟩ : PNC) ∈ pnCandidates pages ↔
        ∃ p, pages[idx]? = some p ∧ 3 ≤ (pageLines p).length ∧
          pos < (pageLines p).length ∧ (pos < 3 ∨ (pageLines p).length ≤ pos + 3) ∧
          o = (pageLines p).getD pos [] ∧ isDigitLine o = true ∧ v = digitVal o := by
  intro pages idx pos v o
  rw [pnCandidates, mem_pnCands]
  constructor
  · rintro ⟨j, p, hj, hc⟩
    have hm := (mem_pnPageCands _ _ _).1 hc
    have hidx : idx = j := by simpa using hm.1
    subst hidx
    exact ⟨p, hj, hm.2.1, hm.2.2.1, hm.2.2.2.1, hm.2.2.2.2.1, hm.2.2.2.2.2.1, hm.2.2.2.2.2.2⟩
  · rintro ⟨p, hp, h3, hpos, hcase, ho, hd, hv⟩
    refine ⟨idx, p, hp, (mem_pnPageCands _ _ _).2 ⟨by simp, h3, hpos, hcase, ho, hd, hv⟩⟩

/-- **C6 counterexample** — the claim as stated is false on a one-page
document whose page has a single non-blank line `"7"`: that line is among
the first 3 non-blank lines and consists of one digit, yet the detector
records no candidate at all, because pages with fewer than 3 non-blank
lines are skipped entirely (`if len(lines) >= 3`). -/
theorem C6_counterexample :
    pnCandidates ["7".data] = []
    ∧ pageLines "7".data = ["7".data]
    ∧ isDigitLine "7".data = true
    ∧ (pageLines "7".data).length < 3 := by
  exact ⟨by decide, by decide, by decide, by decide⟩

theorem length_groupAt_le (p : Nat) (cs : List PNC) :
    (groupAt p cs).length ≤ cs.length := by
  simp only [groupAt, List.length_map]
  exact List.length_filter_le _ cs

/-- **C2 (amended)** — group qualification of the Page-Number Detector: a
string is in the removal set iff some position group (of the candidates,
grouped by line position) has at least 3 candidates, satisfies
`5 * sequential_count ≥ 3 * group_size` on the page-sorted candidates —
i.e. the strictly-increasing-with-gap-≤-5 adjacent pairs number at least
60% **of the group's candidate count** (not of its adjacent pairs; that is
the amendment forced by `C2_counterexample`) — and contains the string
among its original texts. -/
theorem C2_group_qualification_amended :
    ∀ (pages : List Str) (s : Str),
      s ∈ detect_page_numbers pages ↔
        ∃ p, 3 ≤ (groupAt p (pnCandidates pages)).length ∧
          3 * (groupAt p (pnCandidates pages)).length ≤
            5 * seqCount (sortCands (groupAt p (pnCandidates pages))) ∧
          s ∈ (groupAt p (pnCandidates pages)).map (fun c => c.2.2) := by
  intro pages s
  simp only [detect_page_numbers]
  by_cases hlen : (pnCandidates pages).length < 3
  · rw [if_pos hlen]
    refine iff_of_false (List.not_mem_nil s) ?_
    rintro ⟨p, h3, _, _⟩
    have := length_groupAt_le p (pnCandidates pages)
    omega
  · rw [if_neg hlen]
    rw [List.mem_flatMap]
    constructor
    · rintro ⟨p, _, hs⟩
      by_cases h3 : (groupAt p (pnCandidates pages)).length < 3
      · rw [if_pos h3] at hs
        exact absurd hs (List.not_mem_nil s)
      · rw [if_neg h3] at hs
        by_cases hr : 3 * (groupAt p (pnCandidates pages)).length ≤
            5 * seqCount (sortCands (groupAt p (pnCandidates pages)))
        · rw [if_pos hr] at hs
          refine ⟨p, by omega, hr, ?_⟩
          obtain ⟨c, hc, he⟩ := List.mem_map.1 hs
          exact List.mem_map.2 ⟨c, (mem_sortCands c _).1 hc, he⟩
        · rw [if_neg hr] at hs
          exact absurd hs (List.not_mem_nil s)
    · rintro ⟨p, h3, hr, hs⟩
      refine ⟨p, ?_, ?_⟩
      · rw [mem_dedupF]
        refine ⟨?_, List.not_mem_nil p⟩
        have hne : groupAt p (pnCandidates pages) ≠ [] := by
          intro h
          rw [h] at h3
          simp at h3
        obtain ⟨x, hx⟩ := List.exists_mem_of_ne_nil _ hne
        simp only [groupAt, List.mem_map, List.mem_filter] at hx
        obtain ⟨c, ⟨hc, hcp⟩, _⟩ := hx
        exact List.mem_map.2 ⟨c, hc, by simpa using hcp⟩
      · rw [if_neg (by omega), if_pos hr]
        obtain ⟨c, hc, he⟩ := List.mem_map.1 hs
        exact List.mem_map.2 ⟨c, (mem_sortCands c _).2 hc, he⟩

/-- The concrete 4-page document refuting C2 as stated: a last-line group
`1, 2, 3, 100` has 3 adjacent pairs of which 2 (67% ≥ 60%) strictly
increase with gap ≤ 5. -/
def C2cexPages : List Str :=
  [ "Alpha line one\nBeta line two\nGamma line three\nDelta line four\nEpsilon line five\n1".data
  , "Alpha line one\nBeta line two\nGamma line three\nDelta line four\nEpsilon line five\n2".data
  , "Alpha line one\nBeta line two\nGamma line three\nDelta line four\nEpsilon line five\n3".data
  , "Alpha line one\nBeta line two\nGamma line three\nDelta line four\nEpsilon line five\n100".data ]

/-- **C2 counterexample** — on `C2cexPages` the position-5 group has 4
candidates and 2 of its 3 adjacent pairs (≥ 60% of the pairs) strictly
increase with gap ≤ 5, so by the claim its originals (e.g. `"1"`) belong
to the removal set; but the code compares against 60% of the candidate
count (`2 ≥ 0.6·4` fails) and removes nothing. -/
theorem C2_counterexample :
    3 ≤ (groupAt 5 (pnCandidates C2cexPages)).length
    ∧ 3 * ((groupAt 5 (pnCandidates C2cexPages)).length - 1)
        ≤ 5 * seqCount (sortCands (groupAt 5 (pnCandidates C2cexPages)))
    ∧ "1".data ∈ (groupAt 5 (pnCandidates C2cexPages)).map (fun c => c.2.2)
    ∧ detect_page_numbers C2cexPages = [] := by
  exact ⟨by decide, by decide, by decide, by decide⟩

/- ── Citation header formatter (`format_citation_header`) ───────────────── -/

/-- The Citation record: four optional string fields, mirroring the dict
returned by `extract_citation`. -/
structure Citation where
  title : Option Str
  author : Option Str
  date : Option Str
  source : Option Str
deriving DecidableEq

/-- Python truthiness of `citation.get(key)`: `None` and the empty string
are absent. -/
def present : Option Str → Bool
  | none => false
  | some s => !s.isEmpty

/-- `", ".join(...)` / `"\n".join(...)`. -/
def joinSep (sep : Str) : List Str → Str
  | [] => []
  | [x] => x
  | x :: y :: rest => x ++ sep ++ joinSep sep (y :: rest)

/-- `format_citation_header(citation)`: an empty string unless a title and
at least one further field are present; otherwise a header block with the
title, an optional `By <author>` line, an optional `source, date` line,
and a 40-em-dash rule. -/
def format_citation_header (c : Citation) : Str :=
  let has_title := present c.title
  let has_author := present c.author
  let has_source := present c.source
  let has_date := present c.date
  if !has_title || !(has_author || has_source || has_date) then []
  else
    let parts : List Str :=
      [c.title.getD []]
        ++ (if has_author then ["By ".data ++ c.author.getD []] else [])
        ++ (let source_date : List Str :=
              (if has_source then [c.source.getD []] else [])
                ++ (if has_date then [c.date.getD []] else [])
            if source_date.isEmpty then [] else [joinSep ", ".data source_date])
    joinSep "\n".data parts ++ "\n\n".data ++ List.replicate 40 '—' ++ "\n\n".data

/-- Substring occurrence (as plain list decomposition). -/
def strContains (s sub : Str) : Prop := ∃ pre post, s = pre ++ sub ++ post

/-- **C3** — citation-header gating: the header is empty unless the title
and at least one of author/source/date are present; a citation with only a
title produces the empty string; a citation with nonempty title and date
produces a non-empty header containing both parts. -/
theorem C3_citation_header_gating :
    (∀ c : Citation,
        (present c.title = false ∨
          (present c.author = false ∧ present c.source = false ∧ present c.date = false)) →
        format_citation_header c = [])
    ∧ (∀ t : Str, format_citation_header ⟨some t, none, none, none⟩ = [])
    ∧ (∀ (c : Citation) (t d : Str), c.title = some t → t ≠ [] → c.date = some d → d ≠ [] →
        format_citation_header c ≠ [] ∧ strContains (format_citation_header c) t ∧
          strContains (format_citation_header c) d) := by
  refine ⟨?_, ?_, ?_⟩
  · intro c hc
    simp only [format_citation_header]
    rcases hc with h | ⟨h1, h2, h3⟩
    · rw [h]
      simp
    · rw [h1, h2, h3]
      simp
  · intro t
    simp [format_citation_header, present]
  · intro c t d htitle ht hdate hd
    obtain ⟨ct, ca, cdt, cs⟩ := c
    simp only at htitle hdate
    subst htitle
    subst hdate
    have hpt : present (some t) = true := by
      simp [present, List.isEmpty_eq_false.2 ht]
    have hpd : present (some d) = true := by
      simp [present, List.isEmpty_eq_false.2 hd]
    by_cases hpa : present ca = true
    · by_cases hps : present cs = true
      · have he : format_citation_header ⟨some t, ca, some d, cs⟩ =
            t ++ "\n".data ++ ("By ".data ++ ca.getD []) ++ "\n".data
              ++ (cs.getD [] ++ ", ".data ++ d)
              ++ "\n\n".data ++ List.replicate 40 '—' ++ "\n\n".data := by
          simp only [format_citation_header, hpt, hpa, hps, hpd]
          simp [joinSep, List.append_assoc]
        rw [he]
        refine ⟨by simp, ⟨[], ?_⟩, ?_⟩
        · exact ⟨"\n".data ++ ("By ".data ++ ca.getD []) ++ "\n".data
            ++ (cs.getD [] ++ ", ".data ++ d) ++ "\n\n".data
            ++ List.replicate 40 '—' ++ "\n\n".data, by simp [List.append_assoc]⟩
        · exact ⟨t ++ "\n".data ++ ("By ".data ++ ca.getD []) ++ "\n".data
            ++ (cs.getD [] ++ ", ".data),
            "\n\n".data ++ List.replicate 40 '—' ++ "\n\n".data, by simp [List.append_assoc]⟩
      · have hps' : present cs = false := by simpa using hps
        have he : format_citation_header ⟨some t, ca, some d, cs⟩ =
            t ++ "\n".data ++ ("By ".data ++ ca.getD []) ++ "\n".data ++ d
              ++ "\n\n".data ++ List.replicate 40 '—' ++ "\n\n".data := by
          simp only [format_citation_header, hpt, hpa, hps', hpd]
          simp [joinSep, List.append_assoc]
        rw [he]
        refine ⟨by simp, ⟨[], ?_⟩, ?_⟩
        · exact ⟨"\n".data ++ ("By ".data ++ ca.getD []) ++ "\n".data ++ d
            ++ "\n\n".data ++ List.replicate 40 '—' ++ "\n\n".data, by simp [List.append_assoc]⟩
        · exact ⟨t ++ "\n".data ++ ("By ".data ++ ca.getD []) ++ "\n".data,
            "\n\n".data ++ List.replicate 40 '—' ++ "\n\n".data, by simp [List.append_assoc]⟩
    · have hpa' : present ca = false := by simpa using hpa
      by_cases hps : present cs = true
      · have he : format_citation_header ⟨some t, ca, some d, cs⟩ =
            t ++ "\n".data ++ (cs.getD [] ++ ", ".data ++ d)
              ++ "\n\n".data ++ List.replicate 40 '—' ++ "\n\n".data := by
          simp only [format_citation_header, hpt, hpa', hps, hpd]
          simp [joinSep, List.append_assoc]
        rw [he]
        refine ⟨by simp, ⟨[], ?_⟩, ?_⟩
        · exact ⟨"\n".data ++ (cs.getD [] ++ ", ".data ++ d)
            ++ "\n\n".data ++ List.replicate 40 '—' ++ "\n\n".data, by simp [List.append_assoc]⟩
        · exact ⟨t ++ "\n".data ++ (cs.getD [] ++ ", ".data),
            "\n\n".data ++ List.replicate 40 '—' ++ "\n\n".data, by simp [List.append_assoc]⟩
      · have hps' : present cs = false := by simpa using hps
        have he : format_citation_header ⟨some t, ca, some d, cs⟩ =
            t ++ "\n".data ++ d ++ "\n\n".data ++ List.replicate 40 '—' ++ "\n\n".data := by
          simp only [format_citation_header, hpt, hpa', hps', hpd]
          simp [joinSep, List.append_assoc]
        rw [he]
        refine ⟨by simp, ⟨[], ?_⟩, ?_⟩
        · exact ⟨"\n".data ++ d ++ "\n\n".data ++ List.replicate 40 '—' ++ "\n\n".data,
            by simp [List.append_assoc]⟩
        · exact ⟨t ++ "\n".data, "\n\n".data ++ List.replicate 40 '—' ++ "\n\n".data,
            by simp [List.append_assoc]⟩

/-- **C3 witness** — the gating rule on concrete citations: title+date
yields a non-empty two-part header, title alone yields the empty string. -/
theorem C3_citation_header_gating_witness :
    (format_citation_header ⟨some "A Title".data, none, some "2020".data, none⟩ ≠ []
      ∧ strContains
          (format_citation_header ⟨some "A Title".data, none, some "2020".data, none⟩)
          "A Title".data
      ∧ strContains
          (format_citation_header ⟨some "A Title".data, none, some "2020".data, none⟩)
          "2020".data)
    ∧ format_citation_header ⟨some "Lone Title".data, none, none, none⟩ = [] := by
  constructor
  · exact C3_citation_header_gating.2.2 ⟨some "A Title".data, none, some "2020".data, none⟩
      "A Title".data "2020".data rfl (by decide) rfl (by decide)
  · exact C3_citation_header_gating.2.1 "Lone Title".data

/- ── Hyphenation repair (`clean_document`, step (e)) ────────────────────── -/

/-- Python `\w` at ASCII granularity: letters, digits, underscore. -/
def isWordChar (c : Char) : Bool := c.isAlphanum || c = '_'

theorem takeWhile_append_all {p : α → Bool} :
    ∀ {xs : List α} (ys : List α), (∀ x ∈ xs, p x = true) →
      (xs ++ ys).takeWhile p = xs ++ ys.takeWhile p := by
  intro xs
  induction xs with
  | nil => intro ys _; simp
  | cons a t ih =>
    intro ys h
    have ha : p a = true := h a (List.mem_cons_self _ _)
    simp only [List.cons_append, List.takeWhile_cons, ha, if_true]
    rw [ih ys (fun x hx => h x (List.mem_cons_of_mem _ hx))]

theorem dropWhile_append_all {p : α → Bool} :
    ∀ {xs : List α} (ys : List α), (∀ x ∈ xs, p x = true) →
      (xs ++ ys).dropWhile p = ys.dropWhile p := by
  intro xs
  induction xs with
  | nil => intro ys _; simp
  | cons a t ih =>
    intro ys h
    have ha : p a = true := h a (List.mem_cons_self _ _)
    simp only [List.cons_append, List.dropWhile_cons, ha, if_true]
    exact ih ys (fun x hx => h x (List.mem_cons_of_mem _ hx))

theorem takeWhile_eq_nil_of_head {p : α → Bool} {ys : List α}
    (h : ∀ c, ys.head? = some c → p c = false) : ys.takeWhile p = [] := by
  cases ys with
  | nil => rfl
  | cons a t =>
    have := h a rfl
    simp [List.takeWhile_cons, this]

theorem dropWhile_eq_self_of_head {p : α → Bool} {ys : List α}
    (h : ∀ c, ys.head? = some c → p c = false) : ys.dropWhile p = ys := by
  cases ys with
  | nil => rfl
  | cons a t =>
    have := h a rfl
    simp [List.dropWhile_cons, this]

/-- The hyphenation-repair substitution
`re.sub(r'(\w+)-\n(\w+)', λ m. join if lower else unchanged, text)`:
scan left to right; a maximal word run followed by `-`, a newline and a
word run is joined when the continuation starts with a lower-case letter,
kept verbatim otherwise; scanning resumes after the consumed match. -/
def hyphenRepair : Str → Str
  | [] => []
  | c :: rest =>
    if isWordChar c then
      match hm : rest.dropWhile isWordChar with
      | '-' :: '\n' :: tail =>
        match tail.takeWhile isWordChar with
        | [] => (c :: rest.takeWhile isWordChar) ++ '-' :: '\n' :: hyphenRepair tail
        | c2 :: w2' =>
          if c2.isLower then
            (c :: rest.takeWhile isWordChar) ++ (c2 :: w2')
              ++ hyphenRepair (tail.dropWhile isWordChar)
          else
            (c :: rest.takeWhile isWordChar) ++ '-' :: '\n' :: (c2 :: w2')
              ++ hyphenRepair (tail.dropWhile isWordChar)
      | other => (c :: rest.takeWhile isWordChar) ++ hyphenRepair other
    else c :: hyphenRepair rest
termination_by cs => cs.length
decreasing_by
  all_goals simp_wf
  all_goals first
    | omega
    | (have h1 := length_dropWhile_le' isWordChar rest
       rw [hm] at h1
       simp only [List.length_cons] at h1
       omega)
    | (have h1 := length_dropWhile_le' isWordChar rest
       rw [hm] at h1
       simp only [List.length_cons] at h1
       have h2 := length_dropWhile_le' isWordChar tail
       omega)
    | (have h1 := length_dropWhile_le' isWordChar rest
       rw [hm] at h1
       omega)

section HyphenLemmas

theorem hyphenRepair_nil : hyphenRepair [] = [] := by
  simp [hyphenRepair]

theorem hyphenRepair_nonword (c : Char) (rest : Str) (hc : isWordChar c = false) :
    hyphenRepair (c :: rest) = c :: hyphenRepair rest := by
  simp [hyphenRepair, hc]

theorem hyphenRepair_lower (c : Char) (rest tail : Str) (c2 : Char) (w2' : Str)
    (hc : isWordChar c = true)
    (hm : rest.dropWhile isWordChar = '-' :: '\n' :: tail)
    (hw : tail.takeWhile isWordChar = c2 :: w2')
    (hl : c2.isLower = true) :
    hyphenRepair (c :: rest) =
      (c :: rest.takeWhile isWordChar) ++ (c2 :: w2')
        ++ hyphenRepair (tail.dropWhile isWordChar) := by
  simp only [hyphenRepair, hc, if_true]
  rw [hm]
  conv_lhs => whnf
  rw [hw]
  conv_lhs => whnf
  rw [hl]
  rfl

theorem hyphenRepair_upper (c : Char) (rest tail : Str) (c2 : Char) (w2' : Str)
    (hc : isWordChar c = true)
    (hm : rest.dropWhile isWordChar = '-' :: '\n' :: tail)
    (hw : tail.takeWhile isWordChar = c2 :: w2')
    (hl : c2.isLower = false) :
    hyphenRepair (c :: rest) =
      (c :: rest.takeWhile isWordChar) ++ '-' :: '\n' :: (c2 :: w2')
        ++ hyphenRepair (tail.dropWhile isWordChar) := by
  simp only [hyphenRepair, hc, if_true]
  rw [hm]
  conv_lhs => whnf
  rw [hw]
  conv_lhs => whnf
  rw [hl]
  rfl

theorem hyphenRepair_nocont (c : Char) (rest tail : Str)
    (hc : isWordChar c = true)
    (hm : rest.dropWhile isWordChar = '-' :: '\n' :: tail)
    (hw : tail.takeWhile isWordChar = []) :
    hyphenRepair (c :: rest) =
      (c :: rest.takeWhile isWordChar) ++ '-' :: '\n' :: hyphenRepair tail := by
  simp only [hyphenRepair, hc, if_true]
  rw [hm]
  conv_lhs => whnf
  rw [hw]

theorem hyphenRepair_nohyph (c : Char) (rest : Str)
    (hc : isWordChar c = true)
    (hno : ∀ tail : Str, rest.dropWhile isWordChar ≠ '-' :: '\n' :: tail) :
    hyphenRepair (c :: rest) =
      (c :: rest.takeWhile isWordChar) ++ hyphenRepair (rest.dropWhile isWordChar) := by
  simp only [hyphenRepair, hc, if_true]

theorem isLower_eq_false_of_isUpper {c : Char} (h : c.isUpper = true) : c.isLower = false := by
  simp only [Char.isUpper, Bool.and_eq_true, decide_eq_true_eq] at h
  obtain ⟨h1, h2⟩ := h
  have hnot : ¬ (97 ≤ c.val) := fun h3 => absurd (UInt32.le_trans h3 h2) (by decide)
  simp [Char.isLower, hnot]

end HyphenLemmas

/-- **C4** — hyphenation repair: every occurrence of a maximal word run, a
hyphen, a newline and a continuation word is joined into one word (hyphen
and newline removed) when the continuation starts with a lower-case
letter, and is left unchanged when it starts with an upper-case letter;
in particular `"inter-\nnational"` becomes `"international"` while
`"Mary-\nJane"` stays `"Mary-\nJane"`. -/
theorem C4_hyphenation_repair :
    (∀ (w1 rest : Str) (c2 : Char) (w2' : Str),
        w1 ≠ [] →
        (∀ ch ∈ w1, isWordChar ch = true) →
        (∀ ch ∈ c2 :: w2', isWordChar ch = true) →
        (∀ ch, rest.head? = some ch → isWordChar ch = false) →
        (c2.isLower = true →
            hyphenRepair (w1 ++ '-' :: '\n' :: c2 :: w2' ++ rest)
              = w1 ++ (c2 :: w2') ++ hyphenRepair rest)
          ∧ (c2.isUpper = true →
            hyphenRepair (w1 ++ '-' :: '\n' :: c2 :: w2' ++ rest)
              = w1 ++ '-' :: '\n' :: c2 :: w2' ++ hyphenRepair rest))
    ∧ hyphenRepair "inter-\nnational".data = "international".data
    ∧ hyphenRepair "Mary-\nJane".data = "Mary-\nJane".data := by
  refine ⟨?_, ?_, ?_⟩
  · rintro ⟨⟩ rest c2 w2' hne hw1 hw2 hhead
    · exact absurd rfl hne
    rename_i c w1'
    have hc : isWordChar c = true := hw1 c (List.mem_cons_self _ _)
    have hw1' : ∀ ch ∈ w1', isWordChar ch = true :=
      fun ch hch => hw1 ch (List.mem_cons_of_mem _ hch)
    have hc2 : isWordChar c2 = true := hw2 c2 (List.mem_cons_self _ _)
    have hw2' : ∀ ch ∈ w2', isWordChar ch = true :=
      fun ch hch => hw2 ch (List.mem_cons_of_mem _ hch)
    have htr : rest.takeWhile isWordChar = [] := takeWhile_eq_nil_of_head hhead
    have hdr : rest.dropWhile isWordChar = rest := dropWhile_eq_self_of_head hhead
    have hinput : (c :: w1') ++ '-' :: '\n' :: c2 :: w2' ++ rest
        = c :: (w1' ++ '-' :: '\n' :: c2 :: (w2' ++ rest)) := by simp
    have hm : (w1' ++ '-' :: '\n' :: c2 :: (w2' ++ rest)).dropWhile isWordChar
        = '-' :: '\n' :: (c2 :: (w2' ++ rest)) := by
      rw [dropWhile_append_all _ hw1', List.dropWhile_cons, if_neg (by decide)]
    have htk : (w1' ++ '-' :: '\n' :: c2 :: (w2' ++ rest)).takeWhile isWordChar = w1' := by
      rw [takeWhile_append_all _ hw1', List.takeWhile_cons, if_neg (by decide),
        List.append_nil]
    have hwtail : (c2 :: (w2' ++ rest)).takeWhile isWordChar = c2 :: w2' := by
      simp only [List.takeWhile_cons, hc2, if_true]
      rw [takeWhile_append_all _ hw2', htr, List.append_nil]
    have hdtail : (c2 :: (w2' ++ rest)).dropWhile isWordChar = rest := by
      simp only [List.dropWhile_cons, hc2, if_true]
      rw [dropWhile_append_all _ hw2', hdr]
    constructor
    · intro hl
      rw [hinput, hyphenRepair_lower c _ (c2 :: (w2' ++ rest)) c2 w2' hc hm hwtail hl,
        hdtail, htk]
    · intro hu
      rw [hinput, hyphenRepair_upper c _ (c2 :: (w2' ++ rest)) c2 w2' hc hm hwtail
        (isLower_eq_false_of_isUpper hu), hdtail, htk]
  · rw [show ("inter-\nnational".data : Str)
        = 'i' :: "nter-\nnational".data from rfl,
      hyphenRepair_lower 'i' "nter-\nnational".data "national".data 'n' "ational".data
        (by decide) (by decide) (by decide) (by decide)]
    rw [show (List.dropWhile isWordChar "national".data) = [] from by decide, hyphenRepair_nil]
    decide
  · rw [show ("Mary-\nJane".data : Str) = 'M' :: "ary-\nJane".data from rfl,
      hyphenRepair_upper 'M' "ary-\nJane".data "Jane".data 'J' "ane".data
        (by decide) (by decide) (by decide) (by decide)]
    rw [show (List.dropWhile isWordChar "Jane".data) = [] from by decide, hyphenRepair_nil]
    decide

/-- **C4 witness** — the general rule applied at the concrete occurrences
`"inter" ++ "-\n" ++ "national"` (joined) and `"Mary" ++ "-\n" ++ "Jane"`
(kept). -/
theorem C4_hyphenation_repair_witness :
    hyphenRepair ("inter".data ++ '-' :: '\n' :: 'n' :: "ational".data ++ [])
      = "inter".data ++ ('n' :: "ational".data) ++ hyphenRepair []
    ∧ hyphenRepair ("Mary".data ++ '-' :: '\n' :: 'J' :: "ane".data ++ [])
      = "Mary".data ++ '-' :: '\n' :: 'J' :: "ane".data ++ hyphenRepair [] := by
  constructor
  · exact (C4_hyphenation_repair.1 "inter".data [] 'n' "ational".data (by decide)
      (by decide) (by decide) (by intro ch h; cases h)).1 (by decide)
  · exact (C4_hyphenation_repair.1 "Mary".data [] 'J' "ane".data (by decide)
      (by decide) (by decide) (by intro ch h; cases h)).2 (by decide)

/- ── A small regular-expression matcher ─────────────────────────────────── -/

/-- A nondeterministic matcher: maps an input to the list of possible
remainders after a match, ordered by the `re` engine's backtracking
priority (greedy quantifiers yield longer matches first).  `re.search` /
`re.match` success is existence of a remainder. -/
abbrev M := Str → List Str

/-- Empty pattern. -/
def mEps : M := fun s => [s]

/-- A literal string. -/
def mLit (lit : Str) : M := fun s =>
  if lit.isPrefixOf s then [s.drop lit.length] else []

/-- A literal string under `re.IGNORECASE` (stored lower-case). -/
def mLitCI (lit : Str) : M := fun s =>
  if lit.length ≤ s.length ∧ (s.take lit.length).map Char.toLower = lit then
    [s.drop lit.length]
  else []

/-- A single character from a class. -/
def mCh (p : Char → Bool) : M := fun s =>
  match s with
  | [] => []
  | c :: t => if p c then [t] else []

/-- Sequencing (backtracking order preserved). -/
def mSeq (a b : M) : M := fun s => (a s).flatMap b

/-- Sequencing a whole list of matchers. -/
def mCat (ms : List M) : M := ms.foldr mSeq mEps

/-- Alternation (left preferred). -/
def mAlt (a b : M) : M := fun s => a s ++ b s

/-- Greedy `?`. -/
def mOpt (a : M) : M := fun s => a s ++ [s]

/-- Greedy `p*` over a character class (longest first). -/
def mStar (p : Char → Bool) : M := fun s =>
  let r := (s.takeWhile p).length
  (List.range (r + 1)).map (fun k => s.drop (r - k))

/-- Greedy `p+` over a character class (longest first). -/
def mPlus (p : Char → Bool) : M := fun s =>
  let r := (s.takeWhile p).length
  (List.range r).map (fun k => s.drop (r - k))

/-- `p{n}`: exactly `n` characters of a class. -/
def mRepN (p : Char → Bool) (n : Nat) : M := fun s =>
  if n ≤ s.length ∧ (s.take n).all p then [s.drop n] else []

/-- Greedy `p{n,}`: at least `n` characters of a class. -/
def mAtLeast (p : Char → Bool) (n : Nat) : M := fun s =>
  let r := (s.takeWhile p).length
  if n ≤ r then (List.range (r - n + 1)).map (fun k => s.drop (r - k)) else []

/-- `$`: end of input (or a final newline, as in Python `re`). -/
def mEnd : M := fun s => if s = [] ∨ s = ['\n'] then [s] else []

/-- `\b` placed after a word character: the next character must not be a
word character (or the input ends). -/
def mPeekNW : M := fun s =>
  match s.head? with
  | none => [s]
  | some c => if isWordChar c then [] else [s]

/-- Does the matcher accept at the current position (`re.match`)? -/
def mSome (m : M) (s : Str) : Bool := !(m s).isEmpty

/-- Does the matcher accept at any position (`re.search`)? -/
def searchM (m : M) : Str → Bool
  | [] => mSome m []
  | c :: t => mSome m (c :: t) || searchM m t

/-- `.` (any character but newline). -/
def anyC (c : Char) : Bool := c ≠ '\n'

/-- `\S`. -/
def nonWsC (c : Char) : Bool := !c.isWhitespace

/-- `[A-Z\s]`. -/
def upOrWsC (c : Char) : Bool := c.isUpper || c.isWhitespace

/- ── The Pattern Library (`METADATA_PATTERNS`) ──────────────────────────── -/

/-- ASCII apostrophe (U+0027). -/
def aposC : Char := Char.ofNat 39

def pat_jstor_download (l : Str) : Bool :=
  searchM (mCat [mLit "This content downloaded from ".data, mPlus anyC]) l

def pat_jstor_terms (l : Str) : Bool :=
  searchM (mCat [mLit "All use subject to http".data, mOpt (mLit "s".data),
    mLit "://about.jstor.org/terms".data]) l

def pat_jstor_boilerplate (l : Str) : Bool :=
  searchM (mLit "JSTOR is a not-for-profit service".data) l

def pat_jstor_stable_url (l : Str) : Bool :=
  searchM (mCat [mLit "Stable URL:".data, mStar wsC, mLit "http".data,
    mOpt (mLit "s".data), mLit "://".data]) l

def pat_jstor_accessed (l : Str) : Bool :=
  searchM (mCat [mLit "Accessed:".data, mPlus wsC, mRepN Char.isDigit 2,
    mLit "-".data, mRepN Char.isDigit 2, mLit "-".data, mRepN Char.isDigit 4]) l

def pat_jstor_collab (l : Str) : Bool :=
  searchM (mLit "is collaborating with JSTOR".data) l

def pat_jstor_linked_refs (l : Str) : Bool :=
  searchM (mLit "Linked references are available on JSTOR".data) l

def pat_jstor_your_use (l : Str) : Bool :=
  searchM (mLit "Your use of the JSTOR archive indicates".data) l

def pat_proquest_copyright (l : Str) : Bool :=
  searchM (mCat [mLit "Copyright".data, mStar wsC, mLit "©".data, mStar wsC,
    mRepN Char.isDigit 4, mLit ".".data, mStar wsC, mPlus anyC, mLit ".".data,
    mStar wsC, mLit "All rights reserved".data, mOpt (mLit ".".data)]) l

def pat_proquest_page_range (l : Str) : Bool :=
  searchM (mCat [mLit "Ebook pages ".data, mPlus Char.isDigit, mLit "-".data,
    mPlus Char.isDigit, mStar wsC, mLit "|".data, mStar wsC,
    mLit "Printed page ".data, mPlus Char.isDigit, mLit " of ".data,
    mPlus Char.isDigit]) l

def pat_proquest_url (l : Str) : Bool :=
  searchM (mCat [mLit "http".data, mOpt (mLit "s".data),
    mLit "://ebookcentral.proquest.com/lib/".data, mPlus anyC]) l

def pat_proquest_created (l : Str) : Bool :=
  searchM (mCat [mLit "Created from ".data, mPlus isWordChar, mLit " on ".data,
    mRepN Char.isDigit 4, mLit "-".data, mRepN Char.isDigit 2, mLit "-".data,
    mRepN Char.isDigit 2, mLit " ".data, mRepN Char.isDigit 2, mLit ":".data,
    mRepN Char.isDigit 2, mLit ":".data, mRepN Char.isDigit 2]) l

def pat_proquest_citation (l : Str) : Bool :=
  mSome (mCat [mAtLeast anyC 10, mLit ".".data, mStar wsC, mLit "ProQuest".data,
    mStar wsC, mOpt (mLit "Ebook Central".data), mOpt (mLit ".".data),
    mStar wsC, mEnd]) l

def pat_ebsco_header (l : Str) : Bool :=
  searchM (mCat [mLitCI "ebsco publishing:".data, mStar wsC,
    mLitCI "ebook collection".data, mPlus anyC]) l

def pat_ebsco_terms (l : Str) : Bool :=
  searchM (mCat [mLit "All use subject to http".data, mOpt (mLit "s".data),
    mLit "://www.ebsco.com/terms-of-use".data]) l

def pat_ebsco_rights (l : Str) : Bool :=
  searchM (mCat [mLit "All rights reserved.".data, mStar wsC,
    mLit "May not be reproduced".data]) l

def pat_ebsco_account (l : Str) : Bool :=
  searchM (mCat [mLitCI "account:".data, mStar wsC, mPlus isWordChar]) l

def pat_ebsco_printed_on (l : Str) : Bool :=
  searchM (mCat [mLitCI "printed on ".data, mRepN Char.isDigit 4, mLit "-".data,
    mRepN Char.isDigit 2, mLit "-".data, mRepN Char.isDigit 2, mStar anyC,
    mLitCI "via".data, mPeekNW]) l

def pat_ebsco_copyright_block (l : Str) : Bool :=
  searchM (mCat [mLit "Copyright of ".data, mPlus anyC,
    mLit " is the property of ".data, mPlus anyC]) l

def pat_ebsco_content_may_not (l : Str) : Bool :=
  searchM (mLit "content may not be copied or emailed".data) l

def pat_ebsco_express_written (l : Str) : Bool :=
  searchM (mLit ("copyright holder".data ++ [aposC]
    ++ "s express written permission".data)) l

def pat_ebsco_users_may_print (l : Str) : Bool :=
  searchM (mLit "users may print, download, or email".data) l

def pat_duke_download (l : Str) : Bool :=
  searchM (mCat [mLit "Downloaded from http".data, mOpt (mLit "s".data),
    mLit "://read.dukeupress.edu/".data, mPlus anyC]) l

def pat_duke_user (l : Str) : Bool :=
  searchM (mCat [mLit "by ".data, mPlus upOrWsC, mLit " user".data, mEnd]) l

def pat_publisher_year_line (l : Str) : Bool :=
  mSome (mCat [mRepN Char.isDigit 4, mLit ".".data, mPlus wsC, mPlus anyC,
    mAlt (mLit "Press".data) (mAlt (mLit "Books".data)
      (mAlt (mLit "Publishing".data) (mLit "Publishers".data))),
    mPeekNW, mPlus anyC, mLit ".".data, mStar wsC, mEnd]) l

def pat_tf_url_footer (l : Str) : Bool :=
  searchM (mCat [mLitCI "www.tandfonline.com/".data, mPlus isWordChar]) l

def pat_tf_vol_issue (l : Str) : Bool :=
  mSome (mCat [mRepN Char.isDigit 4, mLit ",".data, mStar wsC, mLitCI "vol.".data,
    mStar wsC, mPlus Char.isDigit, mLit ",".data, mStar wsC, mLitCI "no.".data,
    mStar wsC, mPlus Char.isDigit]) l

def pat_tf_copyright (l : Str) : Bool :=
  mSome (mCat [mStar wsC, mLit "©".data, mStar wsC, mRepN Char.isDigit 4,
    mPlus wsC, mLitCI "taylor".data, mStar wsC, mLit "&".data, mStar wsC,
    mLitCI "francis".data]) l

def pat_doi_line (l : Str) : Bool :=
  mSome (mCat [mStar wsC, mLit "http".data, mOpt (mLit "s".data),
    mLit "://doi.org/".data, mPlus anyC, mEnd]) l

def pat_contact_line (l : Str) : Bool :=
  mSome (mCat [mLitCI "contact".data, mPlus wsC, mPlus anyC, mLit "@".data,
    mPlus anyC, mEnd]) l

def pat_eschol_powered (l : Str) : Bool :=
  searchM (mCat [mLit "eScholarship.org".data, mStar wsC, mOpt (mLit "/".data),
    mStar wsC, mLit "Powered by the California Digital Library".data]) l

def pat_eschol_permalink (l : Str) : Bool :=
  searchM (mCat [mLit "Permalink:".data, mStar wsC, mLit "http".data,
    mOpt (mLit "s".data), mLit "://escholarship.org/".data, mPlus anyC]) l

def pat_chicago_unbound (l : Str) : Bool :=
  searchM (mLit
    "This Article is brought to you for free and open access by Chicago Unbound".data) l

def pat_chicago_follow (l : Str) : Bool :=
  searchM (mCat [mLit "Follow this and additional works at:".data, mStar wsC,
    mLit "http".data, mOpt (mLit "s".data), mLit "://".data]) l

def pat_standalone_url (l : Str) : Bool :=
  mSome (mCat [mStar wsC, mLit "http".data, mOpt (mLit "s".data), mLit "://".data,
    mPlus nonWsC, mStar wsC, mEnd]) l

def pat_creative_commons_line (l : Str) : Bool :=
  searchM (mCat [mLit "Creative Commons Attribution".data, mPlus anyC,
    mLit "License".data]) l

def pat_rights_reserved (l : Str) : Bool :=
  mSome (mCat [mStar wsC, mLit "©".data, mStar wsC, mRepN Char.isDigit 4,
    mPlus anyC, mLit "All rights reserved".data, mOpt (mLit ".".data),
    mStar wsC, mEnd]) l

/-- The full Pattern Library, in source order. -/
def METADATA_PATTERNS_M : List (Str → Bool) :=
  [ pat_jstor_download, pat_jstor_terms, pat_jstor_boilerplate,
    pat_jstor_stable_url, pat_jstor_accessed, pat_jstor_collab,
    pat_jstor_linked_refs, pat_jstor_your_use,
    pat_proquest_copyright, pat_proquest_page_range, pat_proquest_url,
    pat_proquest_created, pat_proquest_citation,
    pat_ebsco_header, pat_ebsco_terms, pat_ebsco_rights, pat_ebsco_account,
    pat_ebsco_printed_on, pat_ebsco_copyright_block, pat_ebsco_content_may_not,
    pat_ebsco_express_written, pat_ebsco_users_may_print,
    pat_duke_download, pat_duke_user, pat_publisher_year_line,
    pat_tf_url_footer, pat_tf_vol_issue, pat_tf_copyright, pat_doi_line,
    pat_contact_line,
    pat_eschol_powered, pat_eschol_permalink,
    pat_chicago_unbound, pat_chicago_follow,
    pat_standalone_url, pat_creative_commons_line, pat_rights_reserved ]

/-- `any(p.search(line) for _, p, _ in METADATA_PATTERNS)`. -/
def anyMetadataPattern (l : Str) : Bool := METADATA_PATTERNS_M.any (fun f => f l)

/- ── Title guessing (`extract_citation`, step 5) ────────────────────────── -/

def skp_chapter (l : Str) : Bool :=
  mSome (mCat [mAlt (mLitCI "chapter".data) (mAlt (mLitCI "part".data)
    (mLitCI "section".data)), mPlus wsC, mPlus isWordChar]) l

def skp_other_works (l : Str) : Bool :=
  mSome (mCat [mLitCI "other".data, mPlus wsC, mLitCI "works".data]) l

def skp_published_by (l : Str) : Bool :=
  mSome (mCat [mLitCI "published".data, mPlus wsC, mLitCI "by".data]) l

def skp_also_see (l : Str) : Bool :=
  mSome (mCat [mAlt (mLitCI "also".data) (mLitCI "see".data), mPlus wsC]) l

def skp_also_appears (l : Str) : Bool := searchM (mLitCI "also appears".data) l

def skp_edited (l : Str) : Bool :=
  mSome (mAlt (mLitCI "edited".data) (mAlt (mLitCI "translated".data)
    (mAlt (mLitCI "with".data) (mLitCI "foreword".data)))) l

def skp_year_dot (l : Str) : Bool :=
  mSome (mCat [mRepN Char.isDigit 4, mLit ".".data]) l

/-- The `skip_patterns` deny-list of the title guess (all applied with
`re.IGNORECASE` via `re.search`; the anchored ones only match at the
start, the bare-word ones anywhere). -/
def skipPatterns : List (Str → Bool) :=
  [ skp_chapter, skp_other_works, skp_published_by, skp_also_see,
    skp_also_appears, skp_edited, skp_year_dot ]

def anySkipPattern (l : Str) : Bool := skipPatterns.any (fun f => f l)

/-- `re.match(r'^\d+$', line)`: a bare number. -/
def isBareNum (l : Str) : Bool := mSome (mCat [mPlus Char.isDigit, mEnd]) l

/-- The title-guess loop of `extract_citation` (step 5), with the Python
indexing operation `line.rstrip()[-1]` modelled in `Except` (the other
one, `line[0]`, is guarded by `len(line) < 20` and split over the two
list patterns): scan the given lines and return the first plausible
title. -/
def guessTitleE : List Str → Except String (Option Str)
  | [] => .ok none
  | [] :: rest => guessTitleE rest
  | (c0 :: t) :: rest =>
    if (c0 :: t).length < 20 || isBareNum (c0 :: t) then guessTitleE rest
    else if c0.isLower then guessTitleE rest
    else
      match (rstripL (c0 :: t)).getLast? with
      | none => .error "string index out of range"
      | some cl =>
        if cl = ',' || cl = ';' || cl = '-' then guessTitleE rest
        else if anySkipPattern (c0 :: t) then guessTitleE rest
        else if anyMetadataPattern (c0 :: t) then guessTitleE rest
        else .ok (some (c0 :: t))

/-- The title guess applied to `lines[:10]`. -/
def guessTitle10E (lines : List Str) : Except String (Option Str) :=
  guessTitleE (lines.take 10)

/-- The claim-side predicate: a plausible title line is at least 20
characters, not a bare number, does not start with a lower-case letter,
does not end (after right-stripping) in a comma, semicolon or hyphen,
matches no deny-list phrase and no Pattern Library entry. -/
def specTitleOKb (l : Str) : Bool :=
  decide (20 ≤ l.length) && !isBareNum l &&
    (match l.head? with
     | some c => !c.isLower
     | none => false) &&
    (match (rstripL l).getLast? with
     | some c => !(c = ',' || c = ';' || c = '-')
     | none => false) &&
    !anySkipPattern l && !anyMetadataPattern l

theorem guessTitleE_eq_find : ∀ ls : List Str, (∀ l ∈ ls, stripL l = l) →
    guessTitleE ls = .ok (ls.find? specTitleOKb) := by
  intro ls
  induction ls with
  | nil => intro _; rfl
  | cons line rest ih =>
    intro hstrip
    have hline : stripL line = line := hstrip line (List.mem_cons_self _ _)
    have ihr : guessTitleE rest = .ok (rest.find? specTitleOKb) :=
      ih (fun l hl => hstrip l (List.mem_cons_of_mem _ hl))
    cases line with
    | nil =>
      rw [List.find?_cons_of_neg _ (by decide)]
      simp only [guessTitleE]
      exact ihr
    | cons c0 t =>
      simp only [guessTitleE]
      by_cases h1 : (decide ((c0 :: t).length < 20) || isBareNum (c0 :: t)) = true
      · rw [if_pos h1]
        have hspec : ¬ specTitleOKb (c0 :: t) = true := by
          rcases Bool.or_eq_true _ _ |>.mp h1 with ha | hb
          · have hlt : (c0 :: t).length < 20 := by simpa using ha
            simp only [specTitleOKb, Bool.and_eq_true, decide_eq_true_eq]
            intro hcon
            exact absurd hcon.1.1.1.1.1 (Nat.not_le.mpr hlt)
          · simp [specTitleOKb, hb]
        rw [List.find?_cons_of_neg _ hspec]
        exact ihr
      · rw [if_neg h1]
        have h1' := Bool.or_eq_false_iff.mp (Bool.not_eq_true _ |>.mp h1)
        have hlen : ¬ (c0 :: t).length < 20 := by simpa using h1'.1
        have hbare : isBareNum (c0 :: t) = false := h1'.2
        by_cases h2 : c0.isLower = true
        · rw [if_pos h2]
          have hspec : ¬ specTitleOKb (c0 :: t) = true := by
            simp [specTitleOKb, h2]
          rw [List.find?_cons_of_neg _ hspec]
          exact ihr
        · rw [if_neg h2]
          have hru : rstripL (c0 :: t) = c0 :: t := by
            conv_lhs => rw [← hline]
            rw [rstripL_stripL, hline]
          obtain ⟨L, hgl⟩ : ∃ L, (rstripL (c0 :: t)).getLast? = some L := by
            rw [hru]
            exact ⟨(c0 :: t).getLast (by simp), rfl⟩
          rw [hgl]
          show (if (decide (L = ',') || decide (L = ';') || decide (L = '-'))
                  = true then guessTitleE rest
              else if anySkipPattern (c0 :: t) = true then guessTitleE rest
              else if anyMetadataPattern (c0 :: t) = true then guessTitleE rest
              else Except.ok (some (c0 :: t))) =
            Except.ok (List.find? specTitleOKb ((c0 :: t) :: rest))
          by_cases h3 : (decide (L = ',') || decide (L = ';')
              || decide (L = '-')) = true
          · rw [if_pos h3]
            have h3' : L = ',' ∨ L = ';' ∨ L = '-' := by
              rcases Bool.or_eq_true _ _ |>.mp h3 with h | h
              · rcases Bool.or_eq_true _ _ |>.mp h with h' | h'
                · exact Or.inl (of_decide_eq_true h')
                · exact Or.inr (Or.inl (of_decide_eq_true h'))
              · exact Or.inr (Or.inr (of_decide_eq_true h))
            have hspec : ¬ specTitleOKb (c0 :: t) = true := by
              rcases h3' with h | h | h <;> simp [specTitleOKb, hgl, h]
            rw [List.find?_cons_of_neg _ hspec]
            exact ihr
          · rw [if_neg h3]
            by_cases h4 : anySkipPattern (c0 :: t) = true
            · rw [if_pos h4]
              have hspec : ¬ specTitleOKb (c0 :: t) = true := by
                simp [specTitleOKb, h4]
              rw [List.find?_cons_of_neg _ hspec]
              exact ihr
            · rw [if_neg h4]
              by_cases h5 : anyMetadataPattern (c0 :: t) = true
              · rw [if_pos h5]
                have hspec : ¬ specTitleOKb (c0 :: t) = true := by
                  simp [specTitleOKb, h5]
                rw [List.find?_cons_of_neg _ hspec]
                exact ihr
              · rw [if_neg h5]
                have h3' : ¬ L = ',' ∧ ¬ L = ';' ∧ ¬ L = '-' := by
                  have hor := Bool.or_eq_false_iff.mp
                    (Bool.not_eq_true _ |>.mp h3)
                  have h12 := Bool.or_eq_false_iff.mp hor.1
                  exact ⟨of_decide_eq_false h12.1, of_decide_eq_false h12.2,
                    of_decide_eq_false hor.2⟩
                have hspec : specTitleOKb (c0 :: t) = true := by
                  simp only [specTitleOKb, hgl]
                  simp only [Bool.and_eq_true, decide_eq_true_eq]
                  refine ⟨⟨⟨⟨⟨by omega, ?_⟩, ?_⟩, ?_⟩, ?_⟩, ?_⟩
                  · simp [hbare]
                  · simp [Bool.not_eq_true _ |>.mp h2]
                  · simp [h3'.1, h3'.2.1, h3'.2.2]
                  · simp [Bool.not_eq_true _ |>.mp h4]
                  · simp [Bool.not_eq_true _ |>.mp h5]
                rw [List.find?_cons_of_pos _ hspec]

/-- C7 (amended): when no title came from metadata or structured parses,
the title guess scans the first 10 first-page lines (already
whitespace-stripped, as `extract_citation` builds them) and returns the
first line that is at least 20 characters, is not a bare number, does
**not start with a lower-case letter** (the code tests
`line[0].islower()`, so digit- or punctuation-headed lines pass), does
not end in a comma, semicolon or hyphen, matches no deny-list phrase and
no Pattern Library entry; it raises no exception on such input. -/
theorem C7_title_guess_amended (lines : List Str)
    (h : ∀ l ∈ lines, stripL l = l) :
    guessTitle10E lines = .ok ((lines.take 10).find? specTitleOKb) :=
  guessTitleE_eq_find (lines.take 10)
    (fun l hl => h l (List.mem_of_mem_take hl))

/-- C7 witness: on the single stripped line
"A Fine Title For The Article" (28 characters, upper-case head, clean
tail, no deny-list or Pattern Library match) the guess returns that
line. -/
theorem C7_title_guess_amended_witness :
    (∀ l ∈ ["A Fine Title For The Article".data], stripL l = l) ∧
      guessTitle10E ["A Fine Title For The Article".data] =
        .ok (some "A Fine Title For The Article".data) := by
  have hs : ∀ l ∈ ["A Fine Title For The Article".data], stripL l = l := by
    decide
  refine ⟨hs, ?_⟩
  rw [C7_title_guess_amended ["A Fine Title For The Article".data] hs]
  rfl

/-- C7 counterexample to the frozen claim: the line
"1984 And Other Novels Considered" starts with the digit 1 — not an
upper-case letter — yet the title guess chooses it, because the code
only rejects lines whose first character satisfies `islower()`. -/
theorem C7_counterexample :
    "1984 And Other Novels Considered".data.head? = some '1' ∧
      ('1'.isUpper = false ∧ '1'.isLower = false) ∧
      guessTitle10E ["1984 And Other Novels Considered".data] =
        .ok (some "1984 And Other Novels Considered".data) := by
  refine ⟨rfl, by decide, ?_⟩
  rfl

/- ── Capture groups and the structured parses of `extract_citation` ─────── -/

/-- A capturing matcher: each result is the list of captured group texts
(in order of appearance) paired with the remaining suffix, in
backtracking-priority order. -/
abbrev MC := Str → List (List Str × Str)

/-- A non-capturing fragment inside a capturing regex. -/
def cLift (m : M) : MC := fun s => (m s).map (fun r => ([], r))

/-- Sequencing of capturing fragments. -/
def cSeq (a b : MC) : MC := fun s =>
  (a s).flatMap (fun gr => (b gr.2).map (fun gr2 => (gr.1 ++ gr2.1, gr2.2)))

/-- Sequencing a list of capturing fragments. -/
def cCat (ms : List MC) : MC := ms.foldr cSeq (fun s => [([], s)])

/-- `( ... )`: a capturing group; the captured text is the consumed
prefix. -/
def cGrp (m : M) : MC := fun s =>
  (m s).map (fun r => ([s.take (s.length - r.length)], r))

/-- `re.match` with captures: the highest-priority match's group list,
as the regex engine would return it. -/
def cFirst (mc : MC) (s : Str) : Option (List Str) :=
  (mc s).head?.map Prod.fst

/-- `a or b` on a possibly-absent field (the fields set by
`extract_citation` are never the empty string, so Python truthiness is
just presence). -/
def orSet (o : Option Str) (v : Str) : Option Str :=
  match o with
  | some x => some x
  | none => some v

/-- `rstrip(',')`. -/
def rstripCommas (l : Str) : Str := (l.reverse.dropWhile (fun c => c = ',')).reverse

/-- The junk PDF-metadata values. -/
def junkMeta : List Str :=
  [ "untitled".data, "sometitle".data, "someauthor".data, "unknown".data,
    "none".data, "microsoft word".data ]

/-- Step 1 of `extract_citation`: the PDF-metadata read.  `none` models
the `except Exception: pass` path (any `fitz` failure); `some (t, a)`
the read title/author strings (absent keys already collapsed to
`\x22\x22` by `meta.get(...) or \x22\x22`). -/
def metaStep (md : Option (Str × Str)) : Citation :=
  match md with
  | none => ⟨none, none, none, none⟩
  | some (t, a) =>
    let t' := stripL t
    let a' := stripL a
    { title := if t' ≠ [] ∧ 3 < t'.length ∧ lowerS t' ∉ junkMeta
        then some t' else none
      author := if a' ≠ [] ∧ 1 < a'.length ∧ lowerS a' ∉ junkMeta
        then some a' else none
      date := none
      source := none }

/-- `re.search(r'\.\s*ProQuest\s*(Ebook Central)?\.?\s*$', line)`. -/
def pqEnd (l : Str) : Bool :=
  searchM (mCat [mLit ".".data, mStar wsC, mLit "ProQuest".data, mStar wsC,
    mOpt (mLit "Ebook Central".data), mOpt (mLit ".".data), mStar wsC, mEnd]) l

/-- `re.match(r'^([^.]+,\s*[^.]+)\.\s+(.+),\s+.+,\s+(\d{4})\.\s*ProQuest', line)`. -/
def pqMatch : MC :=
  cCat [ cGrp (mCat [mPlus (fun c => c ≠ '.'), mLit ",".data, mStar wsC,
           mPlus (fun c => c ≠ '.')]),
         cLift (mLit ".".data), cLift (mPlus wsC),
         cGrp (mPlus anyC),
         cLift (mLit ",".data), cLift (mPlus wsC),
         cLift (mPlus anyC),
         cLift (mLit ",".data), cLift (mPlus wsC),
         cGrp (mRepN Char.isDigit 4),
         cLift (mLit ".".data), cLift (mStar wsC),
         cLift (mLit "ProQuest".data) ]

/-- Step 2: the ProQuest citation line (first line whose tail matches,
then the capture attempt; the loop breaks at the first `pqEnd` hit
whether or not the captures succeed). -/
def pqStep (info : Citation) (lines : List Str) : Citation :=
  match lines.find? pqEnd with
  | none => info
  | some line =>
    match cFirst pqMatch line with
    | some (g1 :: g2 :: g3 :: _) =>
      { info with author := orSet info.author (stripL g1)
                  title := orSet info.title (rstripCommas (stripL g2))
                  date := orSet info.date g3 }
    | _ => info

/-- Python `str.isupper` (ASCII): at least one cased character and no
lower-case one. -/
def isUpperPy (l : Str) : Bool :=
  l.any (fun c => c.isUpper || c.isLower) && l.all (fun c => !c.isLower)

/-- `re.match(r'^(\d{4}),\s*VOL\.\s*(\d+),\s*NO\.\s*(\d+)', line, re.IGNORECASE)`. -/
def volM : MC :=
  cCat [ cGrp (mRepN Char.isDigit 4),
         cLift (mLit ",".data), cLift (mStar wsC),
         cLift (mLitCI "vol.".data), cLift (mStar wsC),
         cGrp (mPlus Char.isDigit),
         cLift (mLit ",".data), cLift (mStar wsC),
         cLift (mLitCI "no.".data), cLift (mStar wsC),
         cGrp (mPlus Char.isDigit) ]

/-- Step 3, one line: the journal-header heuristic then the
volume/number header. -/
def journalStep (info : Citation) (line : Str) : Citation :=
  let info1 :=
    if isUpperPy line ∧ 15 < line.length ∧ line.length < 100 ∧
        "JOURNAL".data <:+: line
      then { info with source := orSet info.source (stripL line) } else info
  match cFirst volM line with
  | some (g1 :: g2 :: g3 :: _) =>
    let info2 := { info1 with date := orSet info1.date g1 }
    match info2.source with
    | some s =>
      { info2 with source := some (s ++ " Vol. ".data ++ g2 ++ ", No. ".data ++ g3) }
    | none => info2
  | _ => info1

/-- `re.match(r'^(\d{4})\.\s+(.+(?:Press|Books|Publishing|Publishers).+)\.\s*$', line)`. -/
def pubM : MC :=
  cCat [ cGrp (mRepN Char.isDigit 4),
         cLift (mLit ".".data), cLift (mPlus wsC),
         cGrp (mCat [mPlus anyC,
           mAlt (mLit "Press".data) (mAlt (mLit "Books".data)
             (mAlt (mLit "Publishing".data) (mLit "Publishers".data))),
           mPlus anyC]),
         cLift (mLit ".".data), cLift (mStar wsC), cLift mEnd ]

/-- Step 4, one line: the EBSCO/Duke publisher line. -/
def publisherStep (info : Citation) (line : Str) : Citation :=
  match cFirst pubM line with
  | some (g1 :: g2 :: _) =>
    { info with date := orSet info.date g1
                source := orSet info.source (stripL g2) }
  | _ => info

/-- `extract_citation`, with the PDF-metadata read as an `Option` input
and the two Python index expressions of the title guess as the only
`Except` points. -/
def extract_citationE (md : Option (Str × Str)) (raw_pages : List Str) :
    Except String Citation :=
  let info0 := metaStep md
  match raw_pages with
  | [] => .ok info0
  | fp :: _ =>
    let lines := pageLines fp
    let info1 := pqStep info0 lines
    let info2 := lines.foldl journalStep info1
    let info3 := lines.foldl publisherStep info2
    match info3.title with
    | some _ => .ok info3
    | none =>
      match guessTitleE (lines.take 10) with
      | .error e => .error e
      | .ok t => .ok { info3 with title := t }

/-- C9: citation extraction is total — for every PDF-metadata outcome
(including the failure path) and every raw page list (including the
empty one), `extract_citation` returns a `Citation` record with its
four possibly-absent fields and raises no exception: the two Python
index expressions of the title guess are evaluated only on lines that
are non-empty and already stripped, so the `Except` error branches are
unreachable. -/
theorem C9_extract_citation_total (md : Option (Str × Str))
    (raw_pages : List Str) :
    ∃ c : Citation, extract_citationE md raw_pages = .ok c := by
  cases raw_pages with
  | nil => exact ⟨metaStep md, rfl⟩
  | cons fp rest =>
    have hge : guessTitleE ((pageLines fp).take 10) =
        .ok (((pageLines fp).take 10).find? specTitleOKb) :=
      guessTitleE_eq_find _
        (fun l hl => (pageLines_strip l (List.mem_of_mem_take hl)).1)
    simp only [extract_citationE]
    cases htitle : ((pageLines fp).foldl publisherStep
        ((pageLines fp).foldl journalStep
          (pqStep (metaStep md) (pageLines fp)))).title with
    | some t => exact ⟨_, rfl⟩
    | none =>
      rw [hge]
      exact ⟨_, rfl⟩

/- ── TTS abbreviation expansion (`format_for_tts`) ──────────────────────── -/

/-- One row of the abbreviation table: a case-insensitive literal (stored
lower-case), whether a `\s*(\d+)` tail follows, and the replacement
prefix (the full replacement for plain rows, the part before the kept
digits for numbered rows). -/
structure AbbrevPat where
  lit : Str
  hasNum : Bool
  repl : Str
deriving DecidableEq

/-- The fixed substitution table of `format_for_tts`, in source order. -/
def pats : List AbbrevPat :=
  [ ⟨"et al.".data, false, "and others".data⟩,
    ⟨"ibid.".data, false, "same source".data⟩,
    ⟨"cf.".data, false, "compare".data⟩,
    ⟨"e.g.".data, false, "for example".data⟩,
    ⟨"i.e.".data, false, "that is".data⟩,
    ⟨"p.".data, true, "page ".data⟩,
    ⟨"pp.".data, true, "pages ".data⟩ ]

/-- A single match attempt at the current position (the `\b` to the
left is the caller's charge): the case-insensitive literal, then for
numbered rows `\s*(\d+)` (whitespace and digit classes are disjoint, so
the greedy scan is exact).  Returns the replacement text and the number
of consumed characters. -/
def tryMatch (p : AbbrevPat) (s : Str) : Option (Str × Nat) :=
  if p.lit ≠ [] ∧ p.lit.length ≤ s.length ∧
      (s.take p.lit.length).map Char.toLower = p.lit then
    if p.hasNum then
      if (((s.drop p.lit.length).dropWhile wsC).takeWhile Char.isDigit).isEmpty
        then none
      else some
        (p.repl ++ ((s.drop p.lit.length).dropWhile wsC).takeWhile Char.isDigit,
         p.lit.length + ((s.drop p.lit.length).takeWhile wsC).length +
           (((s.drop p.lit.length).dropWhile wsC).takeWhile Char.isDigit).length)
    else some (p.repl, p.lit.length)
  else none

theorem tryMatch_bounds {p : AbbrevPat} {s : Str} {r : Str} {n : Nat}
    (h : tryMatch p s = some (r, n)) : 1 ≤ n ∧ n ≤ s.length := by
  unfold tryMatch at h
  split at h
  · rename_i hg
    obtain ⟨hne, hlen, _⟩ := hg
    have hl1 : 1 ≤ p.lit.length := by
      cases hl : p.lit with
      | nil => exact absurd hl hne
      | cons a l => simp [hl]
    split at h
    · split at h
      · exact absurd h (by simp)
      · have hn : n = p.lit.length +
            ((s.drop p.lit.length).takeWhile wsC).length +
            (((s.drop p.lit.length).dropWhile wsC).takeWhile Char.isDigit).length := by
          have h2 := Option.some.inj h
          exact (Prod.mk.inj h2).2.symm
        have hsplit : ((s.drop p.lit.length).takeWhile wsC).length +
            ((s.drop p.lit.length).dropWhile wsC).length =
            (s.drop p.lit.length).length := by
          conv_rhs => rw [← List.takeWhile_append_dropWhile (p := wsC)
            (l := s.drop p.lit.length)]
          rw [List.length_append]
        have htw : (((s.drop p.lit.length).dropWhile wsC).takeWhile Char.isDigit).length ≤
            ((s.drop p.lit.length).dropWhile wsC).length :=
          (List.takeWhile_prefix _).length_le
        have hdl : (s.drop p.lit.length).length = s.length - p.lit.length :=
          List.length_drop _ _
        omega
    · have hn : n = p.lit.length := by
        have h2 := Option.some.inj h
        exact (Prod.mk.inj h2).2.symm
      omega
  · exact absurd h (by simp)

/-- The word-boundary value after consuming `n` characters of `s` (the
boundary before `s` being `b`). -/
def nextB (s : Str) (n : Nat) (b : Bool) : Bool :=
  match (s.take n).getLast? with
  | some c => !(isWordChar c)
  | none => b

/-- One pass of `re.sub(pattern, repl, text, flags=re.IGNORECASE)` for an
abbreviation row: scan left to right, tracking whether the current
position is at a `\b` word boundary (the literals all start with word
characters, so `\b` holds exactly when the previous character is not a
word character, or at the start); replace non-overlapping matches and
resume after the consumed text. -/
def subPat (p : AbbrevPat) : Bool → Str → Str
  | _, [] => []
  | false, c :: t => c :: subPat p (!(isWordChar c)) t
  | true, c :: t =>
    match hm : tryMatch p (c :: t) with
    | none => c :: subPat p (!(isWordChar c)) t
    | some (r, n) => r ++ subPat p (nextB (c :: t) n true) ((c :: t).drop n)
termination_by _ s => s.length
decreasing_by
  all_goals simp_wf
  all_goals try omega
  · have := tryMatch_bounds hm
    omega

/-- Does some position of the text (scanned with boundary tracking)
start a match of `q`? -/
def hasM (q : AbbrevPat) : Bool → Str → Bool
  | _, [] => false
  | b, c :: t => (b && (tryMatch q (c :: t)).isSome) || hasM q (!(isWordChar c)) t

/-- The abbreviation-expansion block of `format_for_tts` (the
`if not faithful:` loop): the seven substitutions applied in order. -/
def expandAbbrev (t : Str) : Str := pats.foldl (fun txt p => subPat p true txt) t

theorem toLower_eq_self_of_lt65 {c : Char} (h : c.toNat < 65) : c.toLower = c := by
  have h2 : ¬(65 ≤ c.toNat ∧ c.toNat ≤ 90) := by omega
  simp [Char.toLower, h2]

theorem digit_lt65 {c : Char} (h : c.isDigit = true) : c.toNat < 65 := by
  simp only [Char.isDigit, Bool.and_eq_true, decide_eq_true_eq] at h
  have h2 := h.2
  change c.val ≤ 57 at h2
  have h3 : c.val.toNat ≤ 57 := by exact_mod_cast h2
  simp only [Char.toNat]
  omega

theorem toLower_digit {c : Char} (h : c.isDigit = true) : c.toLower = c :=
  toLower_eq_self_of_lt65 (digit_lt65 h)

theorem toLower_wsC {c : Char} (h : wsC c = true) : c.toLower = c := by
  simp only [wsC, Char.isWhitespace, Bool.or_eq_true, decide_eq_true_eq] at h
  rcases h with ((h | h) | h) | h <;> rw [h] <;> decide

theorem isWordChar_of_digit {c : Char} (h : c.isDigit = true) :
    isWordChar c = true := by
  simp [isWordChar, Char.isAlphanum, h]

theorem subPat_nil (p : AbbrevPat) (b : Bool) : subPat p b [] = [] := by
  cases b <;> simp [subPat]

theorem subPat_false (p : AbbrevPat) (c : Char) (t : Str) :
    subPat p false (c :: t) = c :: subPat p (!(isWordChar c)) t := by
  simp [subPat]

theorem subPat_miss {p : AbbrevPat} {c : Char} {t : Str}
    (hm : tryMatch p (c :: t) = none) :
    subPat p true (c :: t) = c :: subPat p (!(isWordChar c)) t := by
  simp only [subPat]
  rw [hm]

theorem subPat_hit {p : AbbrevPat} {c : Char} {t : Str} {r : Str} {n : Nat}
    (hm : tryMatch p (c :: t) = some (r, n)) :
    subPat p true (c :: t) =
      r ++ subPat p (nextB (c :: t) n true) ((c :: t).drop n) := by
  simp only [subPat]
  rw [hm]

theorem hasM_cons (q : AbbrevPat) (b : Bool) (c : Char) (t : Str) :
    hasM q b (c :: t) =
      ((b && (tryMatch q (c :: t)).isSome) || hasM q (!(isWordChar c)) t) := by
  simp [hasM]

theorem noM_parts {q : AbbrevPat} {b : Bool} {c : Char} {t : Str}
    (h : hasM q b (c :: t) = false) :
    (b = true → (tryMatch q (c :: t)).isSome = false) ∧
      hasM q (!(isWordChar c)) t = false := by
  rw [hasM_cons] at h
  have h2 := Bool.or_eq_false_iff.mp h
  constructor
  · intro hb
    rw [hb] at h2
    simpa using h2.1
  · exact h2.2

theorem noM_false_of_true {q : AbbrevPat} {v : Str}
    (h : hasM q true v = false) : hasM q false v = false := by
  cases v with
  | nil => rfl
  | cons c t =>
    rw [hasM_cons] at h ⊢
    have h2 := Bool.or_eq_false_iff.mp h
    simp [h2.2]

theorem noM_any_of_true {q : AbbrevPat} {v : Str} (b : Bool)
    (h : hasM q true v = false) : hasM q b v = false := by
  cases b
  · exact noM_false_of_true h
  · exact h

/-- A case-insensitive mismatch between a window `w` and a literal,
within their overlap: any attempt to match the literal on `w ++ v`
fails, for every continuation `v`. -/
def killB (w lit : Str) : Bool :=
  ((w.map Char.toLower).zip lit).any (fun pr => !(decide (pr.1 = pr.2)))

theorem tryMatch_none_of_killB {q : AbbrevPat} {w : Str}
    (h : killB w q.lit = true) (v : Str) :
    (tryMatch q (w ++ v)).isSome = false := by
  obtain ⟨pr, hmem, hne⟩ := List.any_eq_true.mp h
  obtain ⟨i, hi, hget⟩ := List.getElem_of_mem hmem
  have hlen := hi
  rw [List.length_zip, List.length_map] at hlen
  have hiw : i < w.length := lt_of_lt_of_le hlen (Nat.min_le_left _ _)
  have hil : i < q.lit.length := lt_of_lt_of_le hlen (Nat.min_le_right _ _)
  rw [List.getElem_zip] at hget
  have hpr1 : pr.1 = Char.toLower (w[i]) := by
    rw [← hget]
    simp
  have hpr2 : pr.2 = q.lit[i] := by
    rw [← hget]
  have hneq : Char.toLower (w[i]) ≠ q.lit[i] := by
    intro he
    rw [← hpr1, ← hpr2] at he
    simp [he] at hne
  unfold tryMatch
  by_cases hgc : q.lit ≠ [] ∧ q.lit.length ≤ (w ++ v).length ∧
      ((w ++ v).take q.lit.length).map Char.toLower = q.lit
  · exfalso
    apply hneq
    have h4 : (((w ++ v).take q.lit.length).map Char.toLower)[i]? = q.lit[i]? := by
      rw [hgc.2.2]
    rw [List.getElem?_map, List.getElem?_take] at h4
    rw [if_pos hil, List.getElem?_append] at h4
    rw [if_pos hiw] at h4
    rw [List.getElem?_eq_getElem hiw, List.getElem?_eq_getElem hil] at h4
    simpa using h4
  · rw [if_neg hgc]
    simp

theorem tryMatch_none_of_numtail {q : AbbrevPat} {s : Str}
    (hnum : q.hasNum = true) {c0 : Char} {tl : Str}
    (h : (s.drop q.lit.length).dropWhile wsC = c0 :: tl)
    (hd : c0.isDigit = false) :
    (tryMatch q s).isSome = false := by
  unfold tryMatch
  by_cases hgc : q.lit ≠ [] ∧ q.lit.length ≤ s.length ∧
      (s.take q.lit.length).map Char.toLower = q.lit
  · rw [if_pos hgc, if_pos hnum, h, List.takeWhile_cons, hd]
    simp
  · rw [if_neg hgc]
    simp

theorem tryMatch_isSome_plain {q : AbbrevPat} {s : Str}
    (hg : q.lit ≠ [] ∧ q.lit.length ≤ s.length ∧
      (s.take q.lit.length).map Char.toLower = q.lit)
    (hnum : q.hasNum = false) :
    (tryMatch q s).isSome = true := by
  unfold tryMatch
  rw [if_pos hg, if_neg (by rw [hnum]; exact Bool.false_ne_true)]
  rfl

theorem tryMatch_isSome_num {q : AbbrevPat} {s : Str}
    (hg : q.lit ≠ [] ∧ q.lit.length ≤ s.length ∧
      (s.take q.lit.length).map Char.toLower = q.lit)
    (hnum : q.hasNum = true) {c0 : Char} {tl : Str}
    (h : (s.drop q.lit.length).dropWhile wsC = c0 :: tl)
    (hd : c0.isDigit = true) :
    (tryMatch q s).isSome = true := by
  unfold tryMatch
  rw [if_pos hg, if_pos hnum, h, List.takeWhile_cons, hd]
  simp

/-- The boundary value after scanning `r` (incoming boundary `b`). -/
def endB (b : Bool) (r : Str) : Bool :=
  match r.getLast? with
  | some c => !(isWordChar c)
  | none => b

/-- Scanning certificate: no match of `q` can start at any position of
`r`, whatever text follows. -/
def deadRun (q : AbbrevPat) : Bool → Str → Bool
  | _, [] => true
  | b, c :: t => (!b || killB (c :: t) q.lit) && deadRun q (!(isWordChar c)) t

theorem endB_cons (b : Bool) (c : Char) (t : Str) :
    endB b (c :: t) = endB (!(isWordChar c)) t := by
  cases t with
  | nil => rfl
  | cons d t2 =>
    simp only [endB, List.getLast?_cons_cons]
    rw [show (d :: t2).getLast? = some ((d :: t2).getLast (by simp)) from rfl]

theorem deadRun_transfer {q : AbbrevPat} : ∀ (r : Str) (b : Bool),
    deadRun q b r = true → ∀ v, hasM q b (r ++ v) = hasM q (endB b r) v := by
  intro r
  induction r with
  | nil =>
    intro b _ v
    simp [endB]
  | cons c t ih =>
    intro b h v
    have hparts : (!b || killB (c :: t) q.lit) = true ∧
        deadRun q (!(isWordChar c)) t = true := by
      simpa only [deadRun, Bool.and_eq_true] using h
    rw [List.cons_append, hasM_cons, endB_cons]
    have hrec := ih (!(isWordChar c)) hparts.2 v
    rw [hrec]
    cases hb : b with
    | false => simp
    | true =>
      have hk : killB (c :: t) q.lit = true := by
        have h1 := hparts.1
        rw [hb] at h1
        simpa using h1
      have hkill := tryMatch_none_of_killB hk v
      rw [← List.cons_append] at *
      rw [hkill]
      simp

theorem killB_head {q : AbbrevPat} {l0 d : Char} {t : Str}
    (hl : q.lit.head? = some l0) (hne : d.toLower ≠ l0) :
    killB (d :: t) q.lit = true := by
  cases hq : q.lit with
  | nil => rw [hq] at hl; exact absurd hl (by simp)
  | cons l0x lt =>
    have hx : l0x = l0 := by
      rw [hq] at hl
      simpa using hl
    unfold killB
    rw [List.map_cons, List.zip_cons_cons, List.any_cons]
    subst hx
    simp [hne]

theorem digit_transfer {q : AbbrevPat} {l0 : Char} (hl : q.lit.head? = some l0)
    (hld : l0.isDigit = false) : ∀ (ds : List Char),
    ds.all Char.isDigit = true → ds ≠ [] → ∀ (v : Str) (b : Bool),
      hasM q b (ds ++ v) = hasM q false v := by
  intro ds
  induction ds with
  | nil => intro _ hne; exact absurd rfl hne
  | cons d t ih =>
    intro hall _ v b
    have hparts : d.isDigit = true ∧ t.all Char.isDigit = true := by
      simpa only [List.all_cons, Bool.and_eq_true] using hall
    have hd := hparts.1
    have ht := hparts.2
    have hdl0 : d.toLower ≠ l0 := by
      rw [toLower_digit hd]
      intro he
      rw [he] at hd
      rw [hd] at hld
      exact absurd hld (by simp)
    have hk := killB_head hl hdl0 (t := t)
    rw [List.cons_append, hasM_cons]
    rw [← List.cons_append, tryMatch_none_of_killB hk v]
    rw [isWordChar_of_digit hd]
    cases t with
    | nil => simp
    | cons d2 t2 =>
      simp only [Bool.and_false, Bool.false_or, Bool.not_true, List.cons_append]
      rw [← List.cons_append]
      exact ih ht (by simp) v false

theorem nextB_cons_succ (c : Char) (t : Str) (n : Nat) (b : Bool) :
    nextB (c :: t) (n + 1) b = nextB t n (!(isWordChar c)) := by
  unfold nextB
  rw [List.take_succ_cons]
  cases htn : t.take n with
  | nil => rfl
  | cons d t2 =>
    rw [List.getLast?_cons_cons]
    rw [show (d :: t2).getLast? = some ((d :: t2).getLast (by simp)) from rfl]

theorem hasM_drop {q : AbbrevPat} : ∀ (n : Nat) (u : Str) (b : Bool),
    hasM q b u = false → hasM q (nextB u n b) (u.drop n) = false := by
  intro n
  induction n with
  | zero =>
    intro u b h
    simpa [nextB] using h
  | succ n ih =>
    intro u b h
    cases u with
    | nil => simp [hasM]
    | cons c t =>
      have h2 := (noM_parts h).2
      rw [List.drop_succ_cons, nextB_cons_succ]
      exact ih t (!(isWordChar c)) h2

theorem tryMatch_some_elim {p : AbbrevPat} {s r : Str} {n : Nat}
    (h : tryMatch p s = some (r, n)) :
    (p.lit ≠ [] ∧ p.lit.length ≤ s.length ∧
      (s.take p.lit.length).map Char.toLower = p.lit) ∧
    ((p.hasNum = false ∧ r = p.repl) ∨
      (p.hasNum = true ∧
        ((s.drop p.lit.length).dropWhile wsC).takeWhile Char.isDigit ≠ [] ∧
        (((s.drop p.lit.length).dropWhile wsC).takeWhile Char.isDigit).all
          Char.isDigit = true ∧
        r = p.repl ++ ((s.drop p.lit.length).dropWhile wsC).takeWhile Char.isDigit)) := by
  unfold tryMatch at h
  split at h
  · rename_i hg
    refine ⟨hg, ?_⟩
    by_cases hnum : p.hasNum = true
    · rw [if_pos hnum] at h
      split at h
      · exact absurd h (by simp)
      · rename_i hds
        right
        refine ⟨hnum, ?_, ?_, ?_⟩
        · intro he
          exact hds (by rw [he]; rfl)
        · apply List.all_eq_true.mpr
          intro x hx
          exact List.mem_takeWhile_imp hx
        · exact ((Prod.mk.inj (Option.some.inj h)).1).symm
    · rw [if_neg hnum] at h
      exact Or.inl ⟨Bool.not_eq_true _ |>.mp hnum,
        ((Prod.mk.inj (Option.some.inj h)).1).symm⟩
  · exact absurd h (by simp)

theorem killB_of_mismatch {w lit : Str} {i : Nat} (h1 : i < w.length)
    (h2 : i < lit.length) (hne : (w[i]).toLower ≠ lit[i]) :
    killB w lit = true := by
  unfold killB
  apply List.any_eq_true.mpr
  have hz : i < ((w.map Char.toLower).zip lit).length := by
    rw [List.length_zip, List.length_map]
    omega
  refine ⟨((w.map Char.toLower).zip lit)[i], List.getElem_mem hz, ?_⟩
  rw [List.getElem_zip]
  simp only [Bool.not_eq_eq_eq_not, Bool.not_true, decide_eq_false_iff_not]
  rw [List.getElem_map]
  exact hne

theorem killB_false_pointwise {w lit : Str} (h : killB w lit = false) :
    ∀ (i : Nat) (h1 : i < w.length) (h2 : i < lit.length),
      (w[i]).toLower = lit[i] := by
  intro i h1 h2
  by_contra hne
  rw [killB_of_mismatch h1 h2 hne] at h
  exact absurd h (by simp)

/-- Seam lemma: if no match of `q` starts at the head of `w ++ t`, then
after one substitution pass of `p` over `t` no match of `q` starts at
the head of `w ++ (result)` either — a partial `q`-match pending in `w`
cannot be completed by a `p`-replacement, because every proper suffix of
a literal contains the final dot while replacements are dot-free and
long enough, and the numeric tails are blocked by the letter-headed
replacements. -/
theorem seamW {q p : AbbrevPat}
    (hq_ne : q.lit ≠ [])
    (hq_last : q.lit.getLast? = some '.')
    (hq_repl : q.lit.length - 1 ≤ p.repl.length)
    (hp_dotfree : p.repl.all (fun c => decide (c.toLower ≠ '.')) = true)
    (hp_head : (match p.repl.head? with
      | some h0 => !h0.isDigit && !wsC h0
      | none => false) = true) :
    ∀ (N : Nat) (t : Str), t.length ≤ N → ∀ (w : Str), w ≠ [] → ∀ (b : Bool),
      (tryMatch q (w ++ t)).isSome = false →
      (tryMatch q (w ++ subPat p b t)).isSome = false := by
  intro N
  induction N with
  | zero =>
    intro t ht w hw b hno
    have ht0 : t = [] := List.length_eq_zero.mp (Nat.le_zero.mp ht)
    subst ht0
    rw [subPat_nil]
    exact hno
  | succ N ih =>
    intro t ht w hw b hno
    cases t with
    | nil =>
      rw [subPat_nil]
      exact hno
    | cons c t2 =>
      have hlt : t2.length ≤ N := by
        simp only [List.length_cons] at ht
        omega
      cases b with
      | false =>
        rw [subPat_false, List.append_cons]
        rw [List.append_cons] at hno
        exact ih t2 hlt (w ++ [c]) (by simp) _ hno
      | true =>
        cases hm : tryMatch p (c :: t2) with
        | none =>
          rw [subPat_miss hm, List.append_cons]
          rw [List.append_cons] at hno
          exact ih t2 hlt (w ++ [c]) (by simp) _ hno
        | some rn =>
          obtain ⟨r, n⟩ := rn
          rw [subPat_hit hm]
          obtain ⟨⟨hpne, hplen, hpci⟩, hdisj⟩ := tryMatch_some_elim hm
          have hrget : ∀ (d : Nat) (hd : d < p.repl.length),
              ∃ hr : d < r.length, r[d] = p.repl[d] := by
            rcases hdisj with ⟨_, hr⟩ | ⟨_, _, _, hr⟩
            · subst hr
              exact fun d hd => ⟨hd, rfl⟩
            · subst hr
              intro d hd
              exact ⟨by rw [List.length_append]; omega,
                List.getElem_append_left hd⟩
          by_cases hjL : w.length < q.lit.length
          · have hw1 : 1 ≤ w.length := by
              cases w with
              | nil => exact absurd rfl hw
              | cons a l => simp
            have hil : q.lit.length - 1 < q.lit.length := by omega
            have hdot : q.lit[q.lit.length - 1] = '.' := by
              have hgl := (List.getLast_eq_iff_getLast_eq_some hq_ne).mpr hq_last
              rw [← hgl, List.getLast_eq_getElem]
            have hd : q.lit.length - 1 - w.length < p.repl.length := by omega
            obtain ⟨hrd, hrval⟩ := hrget (q.lit.length - 1 - w.length) hd
            have hiwr : q.lit.length - 1 < (w ++ r).length := by
              rw [List.length_append]
              omega
            have hchar : (w ++ r)[q.lit.length - 1] =
                r[q.lit.length - 1 - w.length] :=
              List.getElem_append_right (by omega)
            have hkill : killB (w ++ r) q.lit = true := by
              apply killB_of_mismatch hiwr hil
              rw [hdot, hchar, hrval]
              have := List.all_eq_true.mp hp_dotfree _ (List.getElem_mem hd)
              simpa using this
            have hfin := tryMatch_none_of_killB hkill
              (subPat p (nextB (c :: t2) n true) ((c :: t2).drop n))
            rw [List.append_assoc] at hfin
            exact hfin
          · push_neg at hjL
            by_cases hkB : killB w q.lit = true
            · exact tryMatch_none_of_killB hkB _
            · have hkf : killB w q.lit = false := Bool.not_eq_true _ |>.mp hkB
              have hfull : (w.take q.lit.length).map Char.toLower = q.lit := by
                apply List.ext_getElem
                · rw [List.length_map, List.length_take]
                  omega
                · intro idx hx1 hx2
                  rw [List.getElem_map, List.getElem_take]
                  exact killB_false_pointwise hkf idx
                    (by rw [List.length_map, List.length_take] at hx1; omega) hx2
              cases hqnum : q.hasNum with
              | false =>
                exfalso
                have hg : q.lit ≠ [] ∧ q.lit.length ≤ (w ++ (c :: t2)).length ∧
                    ((w ++ (c :: t2)).take q.lit.length).map Char.toLower = q.lit := by
                  refine ⟨hq_ne, ?_, ?_⟩
                  · rw [List.length_append]
                    omega
                  · rw [List.take_append_of_le_length hjL]
                    exact hfull
                have hsucc := tryMatch_isSome_plain hg hqnum
                rw [hno] at hsucc
                exact absurd hsucc (by simp)
              | true =>
                cases hz : (w.drop q.lit.length).dropWhile wsC with
                | cons z0 ztl =>
                  by_cases hz0 : z0.isDigit = true
                  · exfalso
                    have hg : q.lit ≠ [] ∧ q.lit.length ≤ (w ++ (c :: t2)).length ∧
                        ((w ++ (c :: t2)).take q.lit.length).map Char.toLower = q.lit := by
                      refine ⟨hq_ne, ?_, ?_⟩
                      · rw [List.length_append]
                        omega
                      · rw [List.take_append_of_le_length hjL]
                        exact hfull
                    have hdw : ((w ++ (c :: t2)).drop q.lit.length).dropWhile wsC =
                        z0 :: (ztl ++ (c :: t2)) := by
                      rw [List.drop_append_of_le_length hjL]
                      rw [List.dropWhile_append, hz]
                      simp
                    have hsucc := tryMatch_isSome_num hg hqnum hdw hz0
                    rw [hno] at hsucc
                    exact absurd hsucc (by simp)
                  · have hz0f : z0.isDigit = false := Bool.not_eq_true _ |>.mp hz0
                    have hdw : ((w ++ (r ++ subPat p (nextB (c :: t2) n true)
                        ((c :: t2).drop n))).drop q.lit.length).dropWhile wsC =
                        z0 :: (ztl ++ (r ++ subPat p (nextB (c :: t2) n true)
                          ((c :: t2).drop n))) := by
                      rw [List.drop_append_of_le_length hjL]
                      rw [List.dropWhile_append, hz]
                      simp
                    exact tryMatch_none_of_numtail hqnum hdw hz0f
                | nil =>
                  have hall : ∀ x ∈ w.drop q.lit.length, wsC x = true :=
                    List.dropWhile_eq_nil_iff.mp hz
                  obtain ⟨h0, rtl, hrepl⟩ : ∃ h0 rtl, p.repl = h0 :: rtl := by
                    cases hrp : p.repl with
                    | nil =>
                      rw [hrp] at hp_head
                      exact absurd hp_head (by simp)
                    | cons a l => exact ⟨a, l, rfl⟩
                  have hh0 : h0.isDigit = false ∧ wsC h0 = false := by
                    rw [hrepl] at hp_head
                    simp only [List.head?_cons, Bool.and_eq_true] at hp_head
                    exact ⟨by simpa using hp_head.1, by simpa using hp_head.2⟩
                  obtain ⟨rr, hr0⟩ : ∃ rr, r = h0 :: rr := by
                    rcases hdisj with ⟨_, hr⟩ | ⟨_, _, _, hr⟩
                    · exact ⟨rtl, by rw [hr, hrepl]⟩
                    · refine ⟨rtl ++ ((((c :: t2).drop p.lit.length).dropWhile
                        wsC).takeWhile Char.isDigit), ?_⟩
                      rw [hr, hrepl]
                      rfl
                  have hdw : ((w ++ (r ++ subPat p (nextB (c :: t2) n true)
                      ((c :: t2).drop n))).drop q.lit.length).dropWhile wsC =
                      h0 :: (rr ++ subPat p (nextB (c :: t2) n true)
                        ((c :: t2).drop n)) := by
                    rw [List.drop_append_of_le_length hjL]
                    rw [dropWhile_append_all _ hall]
                    rw [hr0, List.cons_append, List.dropWhile_cons, hh0.2]
                    simp
                  exact tryMatch_none_of_numtail hqnum hdw hh0.1

theorem repl_transfer {q p : AbbrevPat} {r : Str} {n : Nat} {s : Str}
    (hm : tryMatch p s = some (r, n))
    (hdead : deadRun q true p.repl = true)
    (hqhead : (match q.lit.head? with
      | some l0 => !l0.isDigit
      | none => false) = true)
    (hEnd : p.hasNum = true ∨ endB true p.repl = false) :
    ∀ v, hasM q true (r ++ v) = hasM q false v := by
  intro v
  obtain ⟨l0, hl0, hl0d⟩ : ∃ l0, q.lit.head? = some l0 ∧ l0.isDigit = false := by
    cases hq : q.lit.head? with
    | none =>
      rw [hq] at hqhead
      exact absurd hqhead (by simp)
    | some a =>
      rw [hq] at hqhead
      exact ⟨a, rfl, by simpa using hqhead⟩
  obtain ⟨_, hdisj⟩ := tryMatch_some_elim hm
  rcases hdisj with ⟨hpn, hr⟩ | ⟨hpn, hne, hall, hr⟩
  · subst hr
    rw [deadRun_transfer _ _ hdead]
    rcases hEnd with hE | hE
    · rw [hpn] at hE
      exact absurd hE (by simp)
    · rw [hE]
  · subst hr
    rw [List.append_assoc, deadRun_transfer _ _ hdead]
    rw [digit_transfer hl0 hl0d _ hall hne]

theorem L_self {p : AbbrevPat}
    (hq_ne : p.lit ≠ [])
    (hq_last : p.lit.getLast? = some '.')
    (hq_repl : p.lit.length - 1 ≤ p.repl.length)
    (hp_dotfree : p.repl.all (fun c => decide (c.toLower ≠ '.')) = true)
    (hp_head : (match p.repl.head? with
      | some h0 => !h0.isDigit && !wsC h0
      | none => false) = true)
    (hdead : deadRun p true p.repl = true)
    (hqhead : (match p.lit.head? with
      | some l0 => !l0.isDigit
      | none => false) = true)
    (hEnd : p.hasNum = true ∨ endB true p.repl = false) :
    ∀ (N : Nat) (u : Str), u.length ≤ N → ∀ b,
      hasM p b (subPat p b u) = false := by
  intro N
  induction N with
  | zero =>
    intro u hu b
    have hu0 : u = [] := List.length_eq_zero.mp (Nat.le_zero.mp hu)
    subst hu0
    rw [subPat_nil]
    rfl
  | succ N ih =>
    intro u hu b
    cases u with
    | nil => rw [subPat_nil]; rfl
    | cons c t2 =>
      have hlt : t2.length ≤ N := by
        simp only [List.length_cons] at hu
        omega
      cases b with
      | false =>
        rw [subPat_false, hasM_cons]
        simp only [Bool.false_and, Bool.false_or]
        exact ih t2 hlt _
      | true =>
        cases hm : tryMatch p (c :: t2) with
        | none =>
          rw [subPat_miss hm, hasM_cons]
          have hseam := seamW hq_ne hq_last hq_repl hp_dotfree hp_head
            t2.length t2 (le_refl _) [c] (by simp) (!(isWordChar c))
            (by rw [List.singleton_append, hm]; rfl)
          rw [List.singleton_append] at hseam
          rw [hseam]
          simp only [Bool.and_false, Bool.false_or]
          exact ih t2 hlt _
        | some rn =>
          obtain ⟨r, n⟩ := rn
          rw [subPat_hit hm]
          rw [repl_transfer hm hdead hqhead hEnd]
          have hn := tryMatch_bounds hm
          have hlen2 : ((c :: t2).drop n).length ≤ N := by
            rw [List.length_drop]
            simp only [List.length_cons] at hu ⊢
            omega
          have hIH := ih ((c :: t2).drop n) hlen2 (nextB (c :: t2) n true)
          cases hbn : nextB (c :: t2) n true with
          | false => rw [hbn] at hIH; exact hIH
          | true =>
            rw [hbn] at hIH
            exact noM_false_of_true hIH

theorem L_pres {q p : AbbrevPat}
    (hq_ne : q.lit ≠ [])
    (hq_last : q.lit.getLast? = some '.')
    (hq_repl : q.lit.length - 1 ≤ p.repl.length)
    (hp_dotfree : p.repl.all (fun c => decide (c.toLower ≠ '.')) = true)
    (hp_head : (match p.repl.head? with
      | some h0 => !h0.isDigit && !wsC h0
      | none => false) = true)
    (hdead : deadRun q true p.repl = true)
    (hqhead : (match q.lit.head? with
      | some l0 => !l0.isDigit
      | none => false) = true)
    (hEnd : p.hasNum = true ∨ endB true p.repl = false) :
    ∀ (N : Nat) (u : Str), u.length ≤ N → ∀ b, hasM q b u = false →
      hasM q b (subPat p b u) = false := by
  intro N
  induction N with
  | zero =>
    intro u hu b _
    have hu0 : u = [] := List.length_eq_zero.mp (Nat.le_zero.mp hu)
    subst hu0
    rw [subPat_nil]
    rfl
  | succ N ih =>
    intro u hu b h
    cases u with
    | nil => rw [subPat_nil]; rfl
    | cons c t2 =>
      have hlt : t2.length ≤ N := by
        simp only [List.length_cons] at hu
        omega
      have hparts := noM_parts h
      cases b with
      | false =>
        rw [subPat_false, hasM_cons]
        simp only [Bool.false_and, Bool.false_or]
        exact ih t2 hlt _ hparts.2
      | true =>
        cases hm : tryMatch p (c :: t2) with
        | none =>
          rw [subPat_miss hm, hasM_cons]
          have hseam := seamW hq_ne hq_last hq_repl hp_dotfree hp_head
            t2.length t2 (le_refl _) [c] (by simp) (!(isWordChar c))
            (by rw [List.singleton_append]; exact hparts.1 rfl)
          rw [List.singleton_append] at hseam
          rw [hseam]
          simp only [Bool.and_false, Bool.false_or]
          exact ih t2 hlt _ hparts.2
        | some rn =>
          obtain ⟨r, n⟩ := rn
          rw [subPat_hit hm]
          rw [repl_transfer hm hdead hqhead hEnd]
          have hn := tryMatch_bounds hm
          have hlen2 : ((c :: t2).drop n).length ≤ N := by
            rw [List.length_drop]
            simp only [List.length_cons] at hu ⊢
            omega
          have hsuffix := hasM_drop n (c :: t2) true h
          have hIH := ih ((c :: t2).drop n) hlen2 (nextB (c :: t2) n true) hsuffix
          cases hbn : nextB (c :: t2) n true with
          | false => rw [hbn] at hIH; exact hIH
          | true =>
            rw [hbn] at hIH
            exact noM_false_of_true hIH

theorem id_of_noM {p : AbbrevPat} : ∀ (N : Nat) (u : Str), u.length ≤ N →
    ∀ b, hasM p b u = false → subPat p b u = u := by
  intro N
  induction N with
  | zero =>
    intro u hu b _
    have hu0 : u = [] := List.length_eq_zero.mp (Nat.le_zero.mp hu)
    subst hu0
    exact subPat_nil _ _
  | succ N ih =>
    intro u hu b h
    cases u with
    | nil => exact subPat_nil _ _
    | cons c t2 =>
      have hlt : t2.length ≤ N := by
        simp only [List.length_cons] at hu
        omega
      have hparts := noM_parts h
      cases b with
      | false =>
        rw [subPat_false, ih t2 hlt _ hparts.2]
      | true =>
        cases hm : tryMatch p (c :: t2) with
        | none =>
          rw [subPat_miss hm, ih t2 hlt _ hparts.2]
        | some rn =>
          exfalso
          have := hparts.1 rfl
          rw [hm] at this
          exact absurd this (by simp)

/-- The decidable per-pair certificate: `q`'s literal is non-empty, ends
in a dot and is letter-headed; `p`'s replacement is dot-free,
letter-headed, long enough to expose the dot mismatch, cannot host a
start of `q`, and ends in a word character unless `p` keeps digits. -/
def pairOK (q p : AbbrevPat) : Bool :=
  (!(q.lit.isEmpty)) &&
  (decide (q.lit.getLast? = some '.')) &&
  (decide (q.lit.length - 1 ≤ p.repl.length)) &&
  (p.repl.all (fun c => decide (c.toLower ≠ '.'))) &&
  (match p.repl.head? with
   | some h0 => !h0.isDigit && !wsC h0
   | none => false) &&
  (match q.lit.head? with
   | some l0 => !l0.isDigit
   | none => false) &&
  deadRun q true p.repl &&
  (p.hasNum || !(endB true p.repl))

theorem pairOK_elim {q p : AbbrevPat} (h : pairOK q p = true) :
    q.lit ≠ [] ∧ q.lit.getLast? = some '.' ∧
    q.lit.length - 1 ≤ p.repl.length ∧
    p.repl.all (fun c => decide (c.toLower ≠ '.')) = true ∧
    (match p.repl.head? with
     | some h0 => !h0.isDigit && !wsC h0
     | none => false) = true ∧
    (match q.lit.head? with
     | some l0 => !l0.isDigit
     | none => false) = true ∧
    deadRun q true p.repl = true ∧
    (p.hasNum = true ∨ endB true p.repl = false) := by
  simp only [pairOK, Bool.and_eq_true] at h
  obtain ⟨⟨⟨⟨⟨⟨⟨h1, h2⟩, h3⟩, h4⟩, h5⟩, h6⟩, h7⟩, h8⟩ := h
  refine ⟨?_, ?_, ?_, h4, h5, h6, h7, ?_⟩
  · intro he
    rw [he] at h1
    exact absurd h1 (by simp)
  · simpa using h2
  · simpa using h3
  · rcases Bool.or_eq_true _ _ |>.mp h8 with hc | hc
    · exact Or.inl hc
    · exact Or.inr (by simpa using hc)

theorem fold_pres {q : AbbrevPat} : ∀ (ps : List AbbrevPat),
    (∀ p ∈ ps, pairOK q p = true) → ∀ acc, hasM q true acc = false →
    hasM q true (ps.foldl (fun txt p => subPat p true txt) acc) = false := by
  intro ps
  induction ps with
  | nil => intro _ acc h; exact h
  | cons p ps2 ih =>
    intro hall acc h
    rw [List.foldl_cons]
    apply ih (fun p2 hp2 => hall p2 (List.mem_cons_of_mem _ hp2))
    obtain ⟨h1, h2, h3, h4, h5, h6, h7, h8⟩ :=
      pairOK_elim (hall p (List.mem_cons_self _ _))
    exact L_pres h1 h2 h3 h4 h5 h7 h6 h8 acc.length acc (le_refl _) true h

theorem fold_self {q : AbbrevPat} : ∀ (ps : List AbbrevPat), q ∈ ps →
    (∀ q2 ∈ ps, ∀ p ∈ ps, pairOK q2 p = true) → ∀ acc,
    hasM q true (ps.foldl (fun txt p => subPat p true txt) acc) = false := by
  intro ps
  induction ps with
  | nil => intro h; exact absurd h (by simp)
  | cons p ps2 ih =>
    intro hq hall acc
    rw [List.foldl_cons]
    rcases List.mem_cons.mp hq with heq | hmem
    · subst heq
      apply fold_pres ps2
        (fun p2 hp2 => hall q (by simp) p2 (List.mem_cons_of_mem _ hp2))
      obtain ⟨h1, h2, h3, h4, h5, h6, h7, h8⟩ :=
        pairOK_elim (hall q (by simp) q (by simp))
      exact L_self h1 h2 h3 h4 h5 h7 h6 h8 acc.length acc (le_refl _) true
    · exact ih hmem (fun q2 hq2 p2 hp2 =>
        hall q2 (List.mem_cons_of_mem _ hq2) p2 (List.mem_cons_of_mem _ hp2)) _

theorem fold_id : ∀ (ps : List AbbrevPat) (u : Str),
    (∀ q ∈ ps, hasM q true u = false) →
    ps.foldl (fun txt p => subPat p true txt) u = u := by
  intro ps
  induction ps with
  | nil => intro u _; rfl
  | cons p ps2 ih =>
    intro u hall
    rw [List.foldl_cons]
    rw [id_of_noM u.length u (le_refl _) true (hall p (by simp))]
    exact ih u (fun q hq => hall q (List.mem_cons_of_mem _ hq))

theorem pats_pairs : ∀ q ∈ pats, ∀ p ∈ pats, pairOK q p = true := by decide

/-- C8: the abbreviation-expansion pass of the TTS Formatter is
idempotent — applying the fixed case-insensitive substitution table
("et al." → "and others", "ibid." → "same source", "cf." → "compare",
"e.g." → "for example", "i.e." → "that is", "p. N" → "page N",
"pp. N" → "pages N", in source order) to its own output changes
nothing: the output of the seven passes contains no occurrence of any
of the seven patterns, so every pass of the second application is the
identity. -/
theorem C8_abbrev_idempotent (t : Str) :
    expandAbbrev (expandAbbrev t) = expandAbbrev t := by
  unfold expandAbbrev
  apply fold_id
  intro q hq
  exact fold_self pats hq pats_pairs t
